import Mathlib

/-!
Verification of the pixel-buffer algorithm engine of the
`processamento_digital_imagens_project` repository (React/TypeScript app,
files `src/unnamed/part_000` and `src/src/App.tsx`).

A pixel buffer (JS `Uint8ClampedArray`, RGBA order) is embedded as a flat
`List ℕ` of samples.  JS double arithmetic on pixel values is embedded as
exact rational arithmetic over `ℚ`; the store into a `Uint8ClampedArray`
slot (clamp to `[0,255]`, round to nearest, ties to even) is `clampU8`.
Imperative loops that write into an array are embedded as folds performing
`List.set` writes, so that snapshot-vs-in-place behaviour of the source is
preserved exactly.
-/

set_option maxRecDepth 100000

/-- A flat RGBA sample buffer (the embedding of a JS `Uint8ClampedArray`). -/
abbrev Buf := List ℕ

/-- Round to nearest integer, ties to even — the rounding mode JS uses when
storing a double into a `Uint8ClampedArray` slot. -/
def roundHalfEven (q : ℚ) : ℤ :=
  if q - ⌊q⌋ < 1/2 then ⌊q⌋
  else if (1 : ℚ)/2 < q - ⌊q⌋ then ⌊q⌋ + 1
  else if ⌊q⌋ % 2 = 0 then ⌊q⌋ else ⌊q⌋ + 1

/-- The JS `Uint8ClampedArray` store conversion: clamp to `[0, 255]` and
round to nearest (ties to even). -/
def clampU8 (q : ℚ) : ℕ := (max 0 (min 255 (roundHalfEven q))).toNat

/-- The luma formula of `converterParaGrayscale`:
`0.299 * R + 0.587 * G + 0.114 * B`, as an exact rational. -/
def lum (r g b : ℕ) : ℚ := (299 * r + 587 * g + 114 * b) / 1000

/-- `converterParaGrayscale` (part_000 lines 69-74): for each RGBA pixel the
loop sets `R = G = B = 0.299*R + 0.587*G + 0.114*B` and leaves alpha alone.
The trailing patterns embed the JS behaviour on a ragged tail (length not a
multiple of 4): reads past the end give `undefined`, the luma becomes `NaN`,
and storing `NaN` into a `Uint8ClampedArray` stores `0`; writes past the end
are dropped. -/
def converterParaGrayscale : Buf → Buf
  | r :: g :: b :: a :: rest =>
      let gray := clampU8 (lum r g b)
      gray :: gray :: gray :: a :: converterParaGrayscale rest
  | [_, _, _] => [0, 0, 0]
  | [_, _] => [0, 0]
  | [_] => [0]
  | [] => []

/-- `binarizarImagem` (part_000 lines 79-87): per pixel, `R = G = B = 0` if
`R < threshold` else `255`; alpha untouched.  Ragged tails behave as in JS
(the computed value is stored into the slots that exist). -/
def binarizarImagem (threshold : ℕ) : Buf → Buf
  | r :: _ :: _ :: a :: rest =>
      let v := if r < threshold then 0 else 255
      v :: v :: v :: a :: binarizarImagem threshold rest
  | [r, _, _] => [if r < threshold then 0 else 255,
                  if r < threshold then 0 else 255,
                  if r < threshold then 0 else 255]
  | [r, _] => [if r < threshold then 0 else 255,
               if r < threshold then 0 else 255]
  | [r] => [if r < threshold then 0 else 255]
  | [] => []

/-! ### Contrast (handleContraste, part_000 lines 575-599) -/

/-- The error taxonomy of the specification (§7).  The source code has no
error channel at all; the contrast handler below therefore always returns
`Except.ok`. -/
inductive PDIError
  | invalidParameter
deriving DecidableEq

/-- The denominator of the contrast factor: `255 * (259 - contraste)`. -/
def contrastDenominator (contraste : ℚ) : ℚ := 255 * (259 - contraste)

/-- The contrast factor `(259 * (contraste + 255)) / (255 * (259 - contraste))`
of `handleContraste`.  Over `ℚ`, division by a zero denominator yields `0`
(JS doubles would yield `Infinity`; no claim here depends on the pixel
values produced in that case). -/
def contrastFator (contraste : ℚ) : ℚ :=
  259 * (contraste + 255) / contrastDenominator contraste

/-- One colour sample of the contrast loop:
`Math.max(0, Math.min(255, fator * (v - 128) + 128))` followed by the
clamped store. -/
def contrastPixel (fator : ℚ) (v : ℕ) : ℕ :=
  clampU8 (max 0 (min 255 (fator * ((v : ℚ) - 128) + 128)))

/-- The pixel loop of `handleContraste`, acting on R, G, B of each pixel and
leaving alpha alone. -/
def contrastMap (fator : ℚ) : Buf → Buf
  | r :: g :: b :: a :: rest =>
      contrastPixel fator r :: contrastPixel fator g :: contrastPixel fator b ::
        a :: contrastMap fator rest
  | [r, g, b] => [contrastPixel fator r, contrastPixel fator g, contrastPixel fator b]
  | [r, g] => [contrastPixel fator r, contrastPixel fator g]
  | [r] => [contrastPixel fator r]
  | [] => []

/-- `handleContraste` with the constant `contraste` (the literal `30` in the
source, noted there as parameterizable) lifted to a parameter.  The source
performs no validation of any kind and has no error path, which the
`Except` codomain makes visible: the result is always `Except.ok`. -/
def handleContraste (contraste : ℚ) (data : Buf) : Except PDIError Buf :=
  Except.ok (contrastMap (contrastFator contraste) data)

/-! ### Morphology engine (part_000 lines 92-191)

The source copies the input twice (`result` / `original`), scans interior
pixels and writes the min (erosion) resp. max (dilation) of the structuring
element's samples of `original`'s red channel into R, G, B of `result`,
copying alpha from `original`.  `morphApply` embeds that imperative loop
verbatim as folds over row/column ranges performing `List.set` writes, so
reading from the untouched snapshot is explicit. -/

/-- `ELEMENTO_ESTRUTURANTE_3X3` (part_000 lines 92-102): the nine
`(dy, dx)` offsets of the 8-neighbour square with centre. -/
def ELEMENTO_ESTRUTURANTE_3X3 : List (ℤ × ℤ) :=
  [(-1, -1), (-1, 0), (-1, 1), (0, -1), (0, 0), (0, 1), (1, -1), (1, 0), (1, 1)]

/-- The red sample `original[((y + dy) * width + (x + dx)) * 4]`.  At every
use site the scan is restricted to interior pixels, so the index is
non-negative and in range; `Int.toNat` and the `getD` default are never
actually exercised. -/
def sampleRed (original : Buf) (w y x : ℕ) (d : ℤ × ℤ) : ℕ :=
  original.getD (((((y : ℤ) + d.1) * w + ((x : ℤ) + d.2)) * 4).toNat) 0

/-- The accumulator loop over the structuring element:
`min = Math.min(min, original[idx])` (with `comb = Nat.min`, `init = 255`)
resp. `max = Math.max(max, original[idx])` (`comb = Nat.max`, `init = 0`). -/
def morphPixel (comb : ℕ → ℕ → ℕ) (init : ℕ) (original : Buf) (w y x : ℕ) : ℕ :=
  ELEMENTO_ESTRUTURANTE_3X3.foldl (fun m d => comb m (sampleRed original w y x d)) init

/-- The four writes at one interior pixel:
`result[outIdx] = result[outIdx+1] = result[outIdx+2] = v` and
`result[outIdx+3] = a`. -/
def writePixel (res : Buf) (outIdx v a : ℕ) : Buf :=
  (((res.set outIdx v).set (outIdx + 1) v).set (outIdx + 2) v).set (outIdx + 3) a

/-- The body of the inner (column) loop of the morphological scan: on an
interior column, perform the four writes of one pixel, reading only the
snapshot `data`. -/
def morphCell (comb : ℕ → ℕ → ℕ) (init : ℕ) (data : Buf) (w y : ℕ)
    (res : Buf) (x : ℕ) : Buf :=
  if 1 ≤ x ∧ x + 1 < w then
    writePixel res ((y * w + x) * 4) (morphPixel comb init data w y x)
      (data.getD ((y * w + x) * 4 + 3) 0)
  else res

/-- The body of the outer (row) loop of the morphological scan. -/
def morphRow (comb : ℕ → ℕ → ℕ) (init : ℕ) (data : Buf) (w h : ℕ)
    (res : Buf) (y : ℕ) : Buf :=
  if 1 ≤ y ∧ y + 1 < h then (List.range w).foldl (morphCell comb init data w y) res
  else res

/-- The common loop shape of `aplicarErosao` / `aplicarDilatacao`
(part_000 lines 108-160, identical up to `comb`/`init`): scan
`1 <= y < height-1`, `1 <= x < width-1`, write the combined red sample and
the snapshot alpha.  `result` starts as a copy of `data` and all reads go
to the snapshot `data`. -/
def morphApply (comb : ℕ → ℕ → ℕ) (init : ℕ) (data : Buf) (w h : ℕ) : Buf :=
  (List.range h).foldl (morphRow comb init data w h) data

/-- `aplicarErosao` (part_000 lines 108-131). -/
def aplicarErosao (data : Buf) (w h : ℕ) : Buf := morphApply Nat.min 255 data w h

/-- `aplicarDilatacao` (part_000 lines 137-160). -/
def aplicarDilatacao (data : Buf) (w h : ℕ) : Buf := morphApply Nat.max 0 data w h

/-- `aplicarAbertura` (part_000 lines 162-178): erosion then dilation. -/
def aplicarAbertura (data : Buf) (w h : ℕ) : Buf :=
  aplicarDilatacao (aplicarErosao data w h) w h

/-- `aplicarFechamento` (part_000 lines 180-191): dilation then erosion. -/
def aplicarFechamento (data : Buf) (w h : ℕ) : Buf :=
  aplicarErosao (aplicarDilatacao data w h) w h

/-! ### Connected-component labeler (rotularComponentes, part_000 lines 201-251)

The label grid `number[][]` is a `List (List ℕ)` of `height` rows of
`width` zeros.  The explicit work list of the flood fill holds raw
`(x, y) : ℤ × ℤ` pairs, because the source pushes all 8 neighbours
unconditionally (so coordinates like `-1` do reach the stack) and validates
on pop.  JS reads `data[pixelIdx]` compare with `=== 0`; an out-of-range
read yields `undefined`, which is not `=== 0`, hence the `getD` default
`255` on the labeler's data reads.  The while loop is embedded with a fuel
counter, one unit per pop; each pop consumes one stack entry and entries
are pushed (8 of them) only when a cell is newly labelled, so
`9 * width * height + 1` units strictly bound the loop. -/

/-- A `height × width` label grid (`number[][]` in the source). -/
abbrev LabelGrid := List (List ℕ)

/-- The `dx` neighbour-offset table of `rotularComponentes`. -/
def rotDX : List ℤ := [-1, -1, -1, 0, 0, 1, 1, 1]

/-- The `dy` neighbour-offset table of `rotularComponentes`. -/
def rotDY : List ℤ := [-1, 0, 1, -1, 1, -1, 0, 1]

/-- `for (i = 0; i < 8; i++) stack.push([x + dx[i], y + dy[i]])`, with the
head of the list as the top of the stack. -/
def pushNeighbors (x y : ℤ) (stack : List (ℤ × ℤ)) : List (ℤ × ℤ) :=
  (List.range 8).foldl
    (fun s i => (x + rotDX.getD i 0, y + rotDY.getD i 0) :: s) stack

/-- One labelling write: `labels[y][x] = label`. -/
def labelSet (labels : LabelGrid) (y x lab : ℕ) : LabelGrid :=
  labels.set y ((labels.getD y []).set x lab)

/-- The `while (stack.length > 0)` loop of `floodFill`: pop `[x, y]`; skip
if out of bounds or already labelled or not a foreground (red `=== 0`)
pixel; otherwise label it and push all 8 neighbours. -/
def floodFill (data : Buf) (w h lab : ℕ) : ℕ → List (ℤ × ℤ) → LabelGrid → LabelGrid
  | 0, _, labels => labels
  | _ + 1, [], labels => labels
  | fuel + 1, (x, y) :: rest, labels =>
      if x < 0 ∨ (w : ℤ) ≤ x ∨ y < 0 ∨ (h : ℤ) ≤ y
          ∨ (labels.getD y.toNat []).getD x.toNat 0 ≠ 0 then
        floodFill data w h lab fuel rest labels
      else if data.getD ((y.toNat * w + x.toNat) * 4) 255 ≠ 0 then
        floodFill data w h lab fuel rest labels
      else
        floodFill data w h lab fuel (pushNeighbors x y rest)
          (labelSet labels y.toNat x.toNat lab)

/-- Fuel that strictly bounds the flood-fill loop (see the section header). -/
def floodFillFuel (w h : ℕ) : ℕ := 9 * w * h + 1

/-- The all-zero initial label grid. -/
def initLabels (w h : ℕ) : LabelGrid := List.replicate h (List.replicate w 0)

/-- The body of the inner (column) loop of the labelling scan: on an
unlabelled foreground pixel, flood fill with `componenteAtual` and
increment it. -/
def rotCell (data : Buf) (w h y : ℕ) (st : LabelGrid × ℕ) (x : ℕ) : LabelGrid × ℕ :=
  if data.getD ((y * w + x) * 4) 255 = 0 ∧ (st.1.getD y []).getD x 0 = 0 then
    (floodFill data w h st.2 (floodFillFuel w h) [((x : ℤ), (y : ℤ))] st.1, st.2 + 1)
  else st

/-- The body of the outer (row) loop of the labelling scan. -/
def rotRow (data : Buf) (w h : ℕ) (st : LabelGrid × ℕ) (y : ℕ) : LabelGrid × ℕ :=
  (List.range w).foldl (rotCell data w h y) st

/-- The row-major scan of `rotularComponentes`: the state is
`(labels, componenteAtual)` with `componenteAtual` starting at 1. -/
def rotularScan (data : Buf) (w h : ℕ) : LabelGrid × ℕ :=
  (List.range h).foldl (rotRow data w h) (initLabels w h, 1)

/-- `rotularComponentes` (part_000 lines 201-251): the label grid and
`componentes = componenteAtual - 1`. -/
def rotularComponentes (data : Buf) (w h : ℕ) : LabelGrid × ℕ :=
  let st := rotularScan data w h
  (st.1, st.2 - 1)

/-- The labeler's foreground test: the pixel's red sample reads `=== 0`
(out-of-range reads are `undefined`, hence the default 255). -/
def rotBlack (data : Buf) (w y x : ℕ) : Prop := data.getD ((y * w + x) * 4) 255 = 0

instance (data : Buf) (w y x : ℕ) : Decidable (rotBlack data w y x) := by
  unfold rotBlack
  infer_instance

/-- 8-neighbourhood adjacency of grid cells (Chebyshev distance exactly 1),
matching the labeler's `dx`/`dy` neighbour tables. -/
def adj8 (y x y' x' : ℕ) : Prop :=
  y ≤ y' + 1 ∧ y' ≤ y + 1 ∧ x ≤ x' + 1 ∧ x' ≤ x + 1 ∧ ¬(y = y' ∧ x = x')

instance (y x y' x' : ℕ) : Decidable (adj8 y x y' x') := by
  unfold adj8
  infer_instance

/-- One step between two in-bounds foreground cells that are 8-adjacent. -/
def rotStep (data : Buf) (w h : ℕ) (p q : ℕ × ℕ) : Prop :=
  p.1 < h ∧ p.2 < w ∧ q.1 < h ∧ q.2 < w ∧ rotBlack data w p.1 p.2
    ∧ rotBlack data w q.1 q.2 ∧ adj8 p.1 p.2 q.1 q.2

/-- Two cells lie in one 8-connected foreground component: a chain of
adjacent in-bounds foreground cells joins them. -/
def sameComponent (data : Buf) (w h : ℕ) : ℕ × ℕ → ℕ × ℕ → Prop :=
  Relation.ReflTransGen (rotStep data w h)

/-- Well-formed `height × width` label grid shape. -/
def LShape (L : LabelGrid) (w h : ℕ) : Prop :=
  L.length = h ∧ ∀ row ∈ L, row.length = w

/-- The number of unlabelled cells — the flood-fill fuel measure. -/
def countZeros (L : LabelGrid) : ℕ :=
  (L.map (fun row => row.countP (fun v => v = 0))).sum


/-! ### Area filter (filtrarComponentesPorArea, part_000 lines 256-296) -/

/-- `areas[i]` for `i ≥ 1`: the number of grid cells carrying label `i`
(the source builds this by incrementing over all cells with a positive
label, which for `i ≥ 1` is exactly this count). -/
def areaCount (labels : LabelGrid) (i : ℕ) : ℕ :=
  (labels.map (fun row => row.countP (fun v => v = i))).sum

/-- The renumbering loop: for `i = 1 .. componentes`, if
`areas[i] >= areaMinima` then `mapeamento[i] = novoLabel++`.  The state is
`(mapeamento, novoLabel)` with `mapeamento` of length `componentes + 1`
initially all zero and `novoLabel` starting at 1. -/
def filtrarState (labels : LabelGrid) (componentes areaMinima : ℕ) : List ℕ × ℕ :=
  (List.range componentes).foldl (fun st j =>
    if areaMinima ≤ areaCount labels (j + 1) then (st.1.set (j + 1) st.2, st.2 + 1)
    else st) (List.replicate (componentes + 1) 0, 1)

/-- `filtrarComponentesPorArea` (part_000 lines 256-296): the cleaned grid
(`labelsLimpos[y][x] = mapeamento[labels[y][x]]` on positive labels, else 0)
and `componentesValidos = novoLabel - 1`. -/
def filtrarComponentesPorArea (labels : LabelGrid) (componentes areaMinima : ℕ) :
    LabelGrid × ℕ :=
  let st := filtrarState labels componentes areaMinima
  (labels.map (fun row => row.map (fun v => if 0 < v then st.1.getD v 0 else 0)), st.2 - 1)

/-! ### Domino pip pipeline (handleAnaliseDomino, part_000 lines 310-406) -/

/-- `detectarLinhaDivisoria` (part_000 lines 298-300): `floor(height / 2)`. -/
def detectarLinhaDivisoria (h : ℕ) : ℕ := h / 2

/-- The hard-coded `margemLinhaDivisoria = 3` of the pipeline. -/
def margemLinhaDivisoria : ℕ := 3

/-- The region split of the pipeline (part_000 lines 332-376): two freshly
zero-initialised buffers of `data`'s length; for each pixel `(y, x)` of the
grid, rows with `y < linhaDivisoria - margem` copy `data` into the top
buffer and white out the bottom one, rows with `y > linhaDivisoria + margem`
do the reverse, and the divider band is whited out in both.  Slots beyond
the `width*height` grid keep the zero of the fresh allocation. -/
def dominoSplit (data : Buf) (w h : ℕ) : Buf × Buf :=
  let div : ℤ := detectarLinhaDivisoria h
  let marg : ℤ := margemLinhaDivisoria
  ((List.range data.length).map (fun i =>
      if i / 4 < w * h then
        if ((i / 4 / w : ℕ) : ℤ) < div - marg then data.getD i 0 else 255
      else 0),
   (List.range data.length).map (fun i =>
      if i / 4 < w * h then
        if div + marg < ((i / 4 / w : ℕ) : ℤ) then data.getD i 0 else 255
      else 0))

/-- The algorithmic core of `handleAnaliseDomino` (part_000 lines 310-406):
grayscale, binarize at 128, opening, split at the divider row, label each
half, filter by minimum area 20, and return
`(pontosSuperior, max(0, pontosInferiorBruto - 1))`. -/
def handleAnaliseDominoCore (data : Buf) (w h : ℕ) : ℕ × ℕ :=
  let limpos := aplicarAbertura (binarizarImagem 128 (converterParaGrayscale data)) w h
  let halves := dominoSplit limpos w h
  let rSup := rotularComponentes halves.1 w h
  let rInf := rotularComponentes halves.2 w h
  let pontosSuperior := (filtrarComponentesPorArea rSup.1 rSup.2 20).2
  let pontosInferiorBruto := (filtrarComponentesPorArea rInf.1 rInf.2 20).2
  (pontosSuperior, (max 0 ((pontosInferiorBruto : ℤ) - 1)).toNat)

/-! ### Zhang-Suen thinning (handleZhangSuen, part_000 lines 812-975)

The binary matrix `bin: number[][]` is a `Grid`.  Each sub-iteration scans
all interior pixels of a consistent snapshot collecting removable pixels
into `toRemove`, and only then clears them; sub-iteration 2 runs on the
grid as mutated by sub-iteration 1.  The unbounded `while (changed)` loop
is embedded with a fuel counter (`zsLoop`); one pass strictly shrinks the
set of 1-cells whenever it reports a change, so `countOnes g + 1` units of
fuel always reach the exit (proved below). -/

/-- A binary pixel grid (`bin: number[][]`). -/
abbrev Grid := List (List ℕ)

/-- `bin[y][x]` with the JS-irrelevant default 0 (scans stay in range). -/
def gridAt (g : Grid) (y x : ℕ) : ℕ := (g.getD y []).getD x 0

/-- Invariant of the labelling scan state `(labels, componenteAtual)`:
the grid keeps its shape, the counter stays at least 1, labelled cells
are in-bounds foreground cells with labels in `[1, componenteAtual)`,
every label below the counter occurs, and a labelled cell's in-bounds
foreground 8-neighbours carry the same label. -/
def ScanInv (data : Buf) (w h : ℕ) (st : LabelGrid × ℕ) : Prop :=
  LShape st.1 w h ∧ 1 ≤ st.2
  ∧ (∀ y x : ℕ, gridAt st.1 y x ≠ 0 →
      y < h ∧ x < w ∧ rotBlack data w y x ∧ gridAt st.1 y x < st.2)
  ∧ (∀ k : ℕ, 1 ≤ k → k < st.2 → ∃ y x : ℕ, gridAt st.1 y x = k)
  ∧ (∀ y x : ℕ, gridAt st.1 y x ≠ 0 →
      ∀ y2 x2 : ℕ, y2 < h → x2 < w → adj8 y x y2 x2 → rotBlack data w y2 x2 →
        gridAt st.1 y2 x2 = gridAt st.1 y x)

/-- The neighbour list `P[2] .. P[9]` of pixel `(y, x)`: clockwise from
north — `bin[y-1][x], bin[y-1][x+1], bin[y][x+1], bin[y+1][x+1],
bin[y+1][x], bin[y+1][x-1], bin[y][x-1], bin[y-1][x-1]`.  Used only for
interior pixels (`1 ≤ y`, `1 ≤ x`), where the truncated subtraction agrees
with the source. -/
def zsP (g : Grid) (y x : ℕ) : List ℕ :=
  [gridAt g (y - 1) x, gridAt g (y - 1) (x + 1), gridAt g y (x + 1),
   gridAt g (y + 1) (x + 1), gridAt g (y + 1) x, gridAt g (y + 1) (x - 1),
   gridAt g y (x - 1), gridAt g (y - 1) (x - 1)]

/-- `B(p1)`: the sum `P[2] + ... + P[9]`. -/
def zsB (g : Grid) (y x : ℕ) : ℕ := (zsP g y x).sum

/-- `A(p1)`: the number of `0 → 1` transitions in the cyclic sequence
`(P[2], ..., P[9], P[2])` (the source's loop over `seq[i], seq[i+1]`). -/
def zsA (g : Grid) (y x : ℕ) : ℕ :=
  let s := zsP g y x ++ [gridAt g (y - 1) x]
  (List.range 8).countP (fun i => s.getD i 0 = 0 ∧ s.getD (i + 1) 0 = 1)

/-- The removal predicate of one sub-iteration: `P[1] === 1`,
`2 ≤ B ≤ 6`, `A = 1`, and the two sub-iteration-specific products
(`P2*P4*P6 = 0 ∧ P4*P6*P8 = 0` for pass 1, `P2*P4*P8 = 0 ∧ P2*P6*P8 = 0`
for pass 2). -/
def zsCond (sub2 : Bool) (g : Grid) (y x : ℕ) : Prop :=
  gridAt g y x = 1 ∧ 2 ≤ zsB g y x ∧ zsB g y x ≤ 6 ∧ zsA g y x = 1 ∧
    (if sub2 then
      gridAt g (y - 1) x * gridAt g y (x + 1) * gridAt g y (x - 1) = 0 ∧
      gridAt g (y - 1) x * gridAt g (y + 1) x * gridAt g y (x - 1) = 0
    else
      gridAt g (y - 1) x * gridAt g y (x + 1) * gridAt g (y + 1) x = 0 ∧
      gridAt g y (x + 1) * gridAt g (y + 1) x * gridAt g y (x - 1) = 0)

instance (sub2 : Bool) (g : Grid) (y x : ℕ) : Decidable (zsCond sub2 g y x) := by
  unfold zsCond; infer_instance

/-- The interior scan of one sub-iteration, collecting `toRemove` in
row-major order from the snapshot `g`. -/
def zsCollect (sub2 : Bool) (g : Grid) (w h : ℕ) : List (ℕ × ℕ) :=
  (List.range h).flatMap (fun y =>
    (List.range w).filterMap (fun x =>
      if 1 ≤ y ∧ y + 1 < h ∧ 1 ≤ x ∧ x + 1 < w ∧ zsCond sub2 g y x then
        some (y, x)
      else none))

/-- The batch commit `for (const [y, x] of toRemove) bin[y][x] = 0`. -/
def zsClear (g : Grid) (l : List (ℕ × ℕ)) : Grid :=
  l.foldl (fun g p => g.set p.1 ((g.getD p.1 []).set p.2 0)) g

/-- One full pass of the while loop: collect and clear for sub-iteration 1,
then collect and clear for sub-iteration 2 on the mutated grid; the flag is
`changed` (`toRemove.length > 0 || toRemove2.length > 0`). -/
def zsPass (w h : ℕ) (g : Grid) : Grid × Bool :=
  let r1 := zsCollect false g w h
  let g1 := zsClear g r1
  let r2 := zsCollect true g1 w h
  let g2 := zsClear g1 r2
  (g2, !r1.isEmpty || !r2.isEmpty)

/-- The grid after `n` full passes. -/
def zsIterate (w h : ℕ) (g : Grid) : ℕ → Grid
  | 0 => g
  | n + 1 => (zsPass w h (zsIterate w h g n)).1

/-- The `while (changed)` loop with fuel: run passes until one reports no
change (or the fuel runs out, which `countOnes g + 1` fuel never does). -/
def zsLoop (w h : ℕ) : ℕ → Grid → Grid
  | 0, g => g
  | fuel + 1, g =>
      let p := zsPass w h g
      if p.2 then zsLoop w h fuel p.1 else p.1

/-- The number of 1-cells of a grid — the termination measure. -/
def countOnes (g : Grid) : ℕ :=
  (g.map (fun row => row.countP (fun v => v = 1))).sum

/-- The whole while loop, with provably sufficient fuel. -/
def zsRun (w h : ℕ) (g : Grid) : Grid := zsLoop w h (countOnes g + 1) g

/-- The handler's in-place binarization before thinning (part_000 lines
826-829): `v = data[i] < 128 ? 1 : 0; data[i] = data[i+1] = data[i+2] =
v * 255` — dark pixels become 255 and light ones 0, alpha untouched. -/
def zsBinarizeData : Buf → Buf
  | r :: _ :: _ :: a :: rest =>
      let v := (if r < 128 then 1 else 0) * 255
      v :: v :: v :: a :: zsBinarizeData rest
  | [r, _, _] => [(if r < 128 then 1 else 0) * 255, (if r < 128 then 1 else 0) * 255,
                  (if r < 128 then 1 else 0) * 255]
  | [r, _] => [(if r < 128 then 1 else 0) * 255, (if r < 128 then 1 else 0) * 255]
  | [r] => [(if r < 128 then 1 else 0) * 255]
  | [] => []

/-- Building `bin` from the binarized data (part_000 lines 832-840):
`bin[y][x] = data[(y*width+x)*4] === 0 ? 0 : 1`. -/
def zsGrid (data : Buf) (w h : ℕ) : Grid :=
  (List.range h).map (fun y =>
    (List.range w).map (fun x =>
      if data.getD ((y * w + x) * 4) 0 = 0 then 0 else 1))

/-- The final write-back (part_000 lines 964-970): the loop over the grid
pixels `y < h`, `x < w` sets `R = G = B = (bin[y][x] ? 0 : 255)` and leaves
alpha untouched; samples beyond the `w*h` grid (absent under the buffer
invariant `data.length = 4 * w * h`) are not visited. -/
def zsWriteback (data : Buf) (w h : ℕ) (g : Grid) : Buf :=
  (List.range data.length).map (fun i =>
    if i / 4 < w * h then
      if i % 4 = 3 then data.getD i 0
      else if gridAt g (i / 4 / w) (i / 4 % w) ≠ 0 then 0 else 255
    else data.getD i 0)

/-- The algorithmic core of `handleZhangSuen` (part_000 lines 812-975):
grayscale, inverting threshold at 128, thinning loop, write-back. -/
def handleZhangSuenData (data : Buf) (w h : ℕ) : Buf :=
  let gray := converterParaGrayscale data
  let binar := zsBinarizeData gray
  let g := zsGrid binar w h
  zsWriteback binar w h (zsRun w h g)

/-! ### Concrete test images -/

/-- Test-image builder: a `w × h` RGBA buffer with alpha `255`, whose pixels
are black (`R = G = B = 0`) at the listed `(y, x)` cells and white
(`R = G = B = 255`) elsewhere — i.e. an already binarized image. -/
def mkBin (w h : ℕ) (blacks : List (ℕ × ℕ)) : Buf :=
  (List.range (4 * w * h)).map (fun i =>
    if i % 4 = 3 then 255
    else if blacks.contains (i / 4 / w, i / 4 % w) then 0 else 255)

/-- The cells of a 3×3 block whose top-left corner is `(y0, x0)`. -/
def blockCells (y0 x0 : ℕ) : List (ℕ × ℕ) :=
  (List.range 3).flatMap (fun dy => (List.range 3).map (fun dx => (y0 + dy, x0 + dx)))

/-- 7×5 binarized image with two black pixels at `(2,2)` and `(2,4)`
(a one-pixel gap at `(2,3)`). -/
def bufGap : Buf := mkBin 7 5 [(2, 2), (2, 4)]

/-- 10×5 binarized image with two 3×3 black blocks (top-left corners
`(1,1)` and `(1,6)`), separated by two background columns. -/
def bufTwoBlocks : Buf := mkBin 10 5 (blockCells 1 1 ++ blockCells 1 6)

/-- 10×5 fully white binarized image. -/
def bufWhite : Buf := mkBin 10 5 []

/-- 10×6 all-white image containing two 3-wide, 2-tall black rectangles,
one in rows 0-1 and one in rows 4-5 (columns 2-4) — the closest
instantiable form of the spec's end-to-end domino scenario (a 3×3 square
cannot lie entirely within two rows). -/
def bufDomino : Buf :=
  mkBin 10 6 [(0, 2), (0, 3), (0, 4), (1, 2), (1, 3), (1, 4),
              (4, 2), (4, 3), (4, 4), (5, 2), (5, 3), (5, 4)]

/-- 3×3 fully black image (all channels 0, alpha 255). -/
def bufDark : Buf :=
  (List.range 36).map (fun i => if i % 4 = 3 then 255 else 0)


/-- A buffer is binarized on its colour channels: every red, green and blue
sample (channel index not 3 mod 4) is 0 or 255. -/
def BinaryRGB (data : Buf) : Prop :=
  ∀ i, i < data.length → i % 4 ≠ 3 → (data.getD i 0 = 0 ∨ data.getD i 0 = 255)

instance (data : Buf) : Decidable (BinaryRGB data) := by
  unfold BinaryRGB
  infer_instance

/-! ## Generic list helpers -/

theorem getD_set_self {α} (l : List α) (i : ℕ) (v d : α) (h : i < l.length) :
    (l.set i v).getD i d = v := by
  rw [List.getD_eq_getElem?_getD, List.getElem?_set_self (by simpa using h)]
  rfl

theorem getD_set_ne {α} (l : List α) (i j : ℕ) (v d : α) (h : i ≠ j) :
    (l.set i v).getD j d = l.getD j d := by
  rw [List.getD_eq_getElem?_getD, List.getElem?_set_ne h, List.getD_eq_getElem?_getD]

theorem foldl_length_inv {β} (f : List ℕ → β → List ℕ) (l : List β) (a : List ℕ)
    (hf : ∀ acc b, (f acc b).length = acc.length) : (l.foldl f a).length = a.length := by
  induction l generalizing a with
  | nil => rfl
  | cons b t ih => rw [List.foldl_cons, ih, hf]

theorem encode_div (w y x : ℕ) (hx : x < w) : (y * w + x) / w = y := by
  rw [Nat.add_comm, Nat.mul_comm, Nat.add_mul_div_left _ _ (Nat.pos_of_ne_zero (by omega)),
    Nat.div_eq_of_lt hx]
  omega

theorem encode_mod (w y x : ℕ) (hx : x < w) : (y * w + x) % w = x := by
  rw [Nat.add_comm, Nat.add_mul_mod_self_right, Nat.mod_eq_of_lt hx]

theorem encode_lt (w h y x : ℕ) (hy : y < h) (hx : x < w) : y * w + x < w * h := by
  calc y * w + x < (y + 1) * w := by rw [Nat.succ_mul]; omega
    _ ≤ h * w := Nat.mul_le_mul_right w hy
    _ = w * h := Nat.mul_comm h w

/-! ## Morphology: pointwise characterisation of the scan -/

theorem length_writePixel (res : Buf) (o v a : ℕ) :
    (writePixel res o v a).length = res.length := by
  simp [writePixel]

theorem writePixel_getD (res : Buf) (p v a i : ℕ) (hlt : p * 4 + 3 < res.length) :
    (writePixel res (p * 4) v a).getD i 0 =
      if i / 4 = p then (if i % 4 = 3 then a else v) else res.getD i 0 := by
  unfold writePixel
  by_cases hip : i / 4 = p
  · rw [if_pos hip]
    have hm : i % 4 = 0 ∨ i % 4 = 1 ∨ i % 4 = 2 ∨ i % 4 = 3 := by omega
    rcases hm with h0 | h1 | h2 | h3
    · have hi : i = p * 4 := by omega
      rw [if_neg (by omega), hi,
        getD_set_ne _ _ _ _ _ (by omega), getD_set_ne _ _ _ _ _ (by omega),
        getD_set_ne _ _ _ _ _ (by omega), getD_set_self _ _ _ _ (by omega)]
    · have hi : i = p * 4 + 1 := by omega
      rw [if_neg (by omega), hi,
        getD_set_ne _ _ _ _ _ (by omega), getD_set_ne _ _ _ _ _ (by omega),
        getD_set_self _ _ _ _ (by simp only [List.length_set]; omega)]
    · have hi : i = p * 4 + 2 := by omega
      rw [if_neg (by omega), hi,
        getD_set_ne _ _ _ _ _ (by omega),
        getD_set_self _ _ _ _ (by simp only [List.length_set]; omega)]
    · have hi : i = p * 4 + 3 := by omega
      rw [if_pos h3, hi, getD_set_self _ _ _ _ (by simp only [List.length_set]; omega)]
  · rw [if_neg hip,
      getD_set_ne _ _ _ _ _ (by omega), getD_set_ne _ _ _ _ _ (by omega),
      getD_set_ne _ _ _ _ _ (by omega), getD_set_ne _ _ _ _ _ (by omega)]

theorem length_morphCell (comb : ℕ → ℕ → ℕ) (init : ℕ) (data : Buf) (w y : ℕ)
    (res : Buf) (x : ℕ) : (morphCell comb init data w y res x).length = res.length := by
  unfold morphCell
  split
  · rw [length_writePixel]
  · rfl

theorem morphCell_pos (comb : ℕ → ℕ → ℕ) (init : ℕ) (data : Buf) (w y : ℕ)
    (res : Buf) (x : ℕ) (hg : 1 ≤ x ∧ x + 1 < w) :
    morphCell comb init data w y res x =
      writePixel res ((y * w + x) * 4) (morphPixel comb init data w y x)
        (data.getD ((y * w + x) * 4 + 3) 0) := by
  unfold morphCell
  rw [if_pos hg]

theorem morphCell_neg (comb : ℕ → ℕ → ℕ) (init : ℕ) (data : Buf) (w y : ℕ)
    (res : Buf) (x : ℕ) (hg : ¬(1 ≤ x ∧ x + 1 < w)) :
    morphCell comb init data w y res x = res := by
  unfold morphCell
  rw [if_neg hg]

theorem morphCells_getD (comb : ℕ → ℕ → ℕ) (init : ℕ) (data : Buf) (w h y : ℕ)
    (hy : y + 1 < h) :
    ∀ (k : ℕ), k ≤ w → ∀ (res : Buf), res.length = 4 * w * h → ∀ i,
      ((List.range k).foldl (morphCell comb init data w y) res).getD i 0 =
        if i / 4 / w = y ∧ 1 ≤ i / 4 % w ∧ i / 4 % w + 1 < w ∧ i / 4 % w < k then
          (if i % 4 = 3 then data.getD i 0 else morphPixel comb init data w y (i / 4 % w))
        else res.getD i 0 := by
  intro k
  induction k with
  | zero =>
    intro _ res _ i
    simp only [List.range_zero, List.foldl_nil]
    rw [if_neg (by omega)]
  | succ k ih =>
    intro hk res hres i
    rw [List.range_succ, List.foldl_append, List.foldl_cons, List.foldl_nil]
    have hmidlen : ((List.range k).foldl (morphCell comb init data w y) res).length
        = 4 * w * h := by
      rw [foldl_length_inv _ _ _ (length_morphCell comb init data w y), hres]
    have hmidget := ih (by omega) res hres
    by_cases hg : 1 ≤ k ∧ k + 1 < w
    · rw [morphCell_pos _ _ _ _ _ _ _ hg]
      have hkw : y * w + k < w * h := encode_lt w h y k (by omega) (by omega)
      rw [writePixel_getD ((List.range k).foldl (morphCell comb init data w y) res)
        (y * w + k) (morphPixel comb init data w y k)
        (data.getD ((y * w + k) * 4 + 3) 0) i (by rw [hmidlen, Nat.mul_assoc]; omega)]
      by_cases hip : i / 4 = y * w + k
      · rw [if_pos hip]
        have hyd : i / 4 / w = y := by rw [hip]; exact encode_div w y k (by omega)
        have hxd : i / 4 % w = k := by rw [hip]; exact encode_mod w y k (by omega)
        have hcond : i / 4 / w = y ∧ 1 ≤ i / 4 % w ∧ i / 4 % w + 1 < w
            ∧ i / 4 % w < k + 1 := ⟨hyd, by omega, by omega, by omega⟩
        rw [if_pos hcond]
        by_cases h3 : i % 4 = 3
        · rw [if_pos h3, if_pos h3]
          have hieq : i = (y * w + k) * 4 + 3 := by omega
          rw [hieq]
        · rw [if_neg h3, if_neg h3, hxd]
      · rw [if_neg hip, hmidget i]
        have hdm : w * (i / 4 / w) + i / 4 % w = i / 4 := Nat.div_add_mod (i / 4) w
        by_cases hc : i / 4 / w = y ∧ 1 ≤ i / 4 % w ∧ i / 4 % w + 1 < w ∧ i / 4 % w < k
        · have hcond : i / 4 / w = y ∧ 1 ≤ i / 4 % w ∧ i / 4 % w + 1 < w
              ∧ i / 4 % w < k + 1 := ⟨hc.1, hc.2.1, hc.2.2.1, by omega⟩
          rw [if_pos hcond, if_pos hc]
        · rw [if_neg hc, if_neg]
          intro hc2
          apply hc
          refine ⟨hc2.1, hc2.2.1, hc2.2.2.1, ?_⟩
          rcases Nat.lt_succ_iff_lt_or_eq.mp hc2.2.2.2 with hlt | heq
          · exact hlt
          · exfalso
            apply hip
            rw [← hdm, hc2.1, heq, Nat.mul_comm]
    · rw [morphCell_neg _ _ _ _ _ _ _ hg, hmidget i]
      by_cases hc : i / 4 / w = y ∧ 1 ≤ i / 4 % w ∧ i / 4 % w + 1 < w ∧ i / 4 % w < k
      · have hcond : i / 4 / w = y ∧ 1 ≤ i / 4 % w ∧ i / 4 % w + 1 < w
            ∧ i / 4 % w < k + 1 := ⟨hc.1, hc.2.1, hc.2.2.1, by omega⟩
        rw [if_pos hcond, if_pos hc]
      · rw [if_neg hc, if_neg]
        intro hc2
        apply hc
        refine ⟨hc2.1, hc2.2.1, hc2.2.2.1, ?_⟩
        rcases Nat.lt_succ_iff_lt_or_eq.mp hc2.2.2.2 with hlt | heq
        · exact hlt
        · exact absurd (And.intro hc2.2.1 hc2.2.2.1) (by omega)

theorem length_morphRow (comb : ℕ → ℕ → ℕ) (init : ℕ) (data : Buf) (w h : ℕ)
    (res : Buf) (y : ℕ) : (morphRow comb init data w h res y).length = res.length := by
  unfold morphRow
  split
  · rw [foldl_length_inv _ _ _ (length_morphCell comb init data w y)]
  · rfl

theorem morphRow_pos (comb : ℕ → ℕ → ℕ) (init : ℕ) (data : Buf) (w h : ℕ)
    (res : Buf) (y : ℕ) (hg : 1 ≤ y ∧ y + 1 < h) :
    morphRow comb init data w h res y =
      (List.range w).foldl (morphCell comb init data w y) res := by
  unfold morphRow
  rw [if_pos hg]

theorem morphRow_neg (comb : ℕ → ℕ → ℕ) (init : ℕ) (data : Buf) (w h : ℕ)
    (res : Buf) (y : ℕ) (hg : ¬(1 ≤ y ∧ y + 1 < h)) :
    morphRow comb init data w h res y = res := by
  unfold morphRow
  rw [if_neg hg]

theorem morphRows_getD (comb : ℕ → ℕ → ℕ) (init : ℕ) (data : Buf) (w h : ℕ)
    (hlen : data.length = 4 * w * h) :
    ∀ (m : ℕ), m ≤ h → ∀ i,
      ((List.range m).foldl (morphRow comb init data w h) data).getD i 0 =
        if i / 4 / w < m ∧ 1 ≤ i / 4 / w ∧ i / 4 / w + 1 < h
            ∧ 1 ≤ i / 4 % w ∧ i / 4 % w + 1 < w ∧ i % 4 < 3 then
          morphPixel comb init data w (i / 4 / w) (i / 4 % w)
        else data.getD i 0 := by
  intro m
  induction m with
  | zero =>
    intro _ i
    simp only [List.range_zero, List.foldl_nil]
    rw [if_neg (by omega)]
  | succ m ih =>
    intro hm i
    rw [List.range_succ, List.foldl_append, List.foldl_cons, List.foldl_nil]
    have hmidlen : ((List.range m).foldl (morphRow comb init data w h) data).length
        = 4 * w * h := by
      rw [foldl_length_inv _ _ _ (length_morphRow comb init data w h), hlen]
    have hmidget := ih (by omega)
    by_cases hg : 1 ≤ m ∧ m + 1 < h
    · rw [morphRow_pos _ _ _ _ _ _ _ hg]
      rw [morphCells_getD comb init data w h m hg.2 w (le_refl w)
        ((List.range m).foldl (morphRow comb init data w h) data) hmidlen i]
      by_cases hrow : i / 4 / w = m ∧ 1 ≤ i / 4 % w ∧ i / 4 % w + 1 < w ∧ i / 4 % w < w
      · rw [if_pos hrow]
        by_cases h3 : i % 4 = 3
        · rw [if_pos h3, if_neg (by omega)]
        · rw [if_neg h3, if_pos (by
            rw [hrow.1]
            exact ⟨by omega, hg.1, hg.2, hrow.2.1, hrow.2.2.1, by omega⟩), hrow.1]
      · rw [if_neg hrow, hmidget i]
        by_cases hc : i / 4 / w < m ∧ 1 ≤ i / 4 / w ∧ i / 4 / w + 1 < h
            ∧ 1 ≤ i / 4 % w ∧ i / 4 % w + 1 < w ∧ i % 4 < 3
        · rw [if_pos hc, if_pos (by exact ⟨by omega, hc.2.1, hc.2.2.1, hc.2.2.2⟩)]
        · rw [if_neg hc, if_neg]
          intro hc2
          apply hc
          refine ⟨?_, hc2.2.1, hc2.2.2.1, hc2.2.2.2⟩
          rcases Nat.lt_succ_iff_lt_or_eq.mp hc2.1 with hlt | heq
          · exact hlt
          · exfalso
            exact hrow ⟨heq, hc2.2.2.2.1, hc2.2.2.2.2.1, by omega⟩
    · rw [morphRow_neg _ _ _ _ _ _ _ hg, hmidget i]
      by_cases hc : i / 4 / w < m ∧ 1 ≤ i / 4 / w ∧ i / 4 / w + 1 < h
          ∧ 1 ≤ i / 4 % w ∧ i / 4 % w + 1 < w ∧ i % 4 < 3
      · rw [if_pos hc, if_pos (by exact ⟨by omega, hc.2.1, hc.2.2.1, hc.2.2.2⟩)]
      · rw [if_neg hc, if_neg]
        intro hc2
        apply hc
        refine ⟨?_, hc2.2.1, hc2.2.2.1, hc2.2.2.2⟩
        rcases Nat.lt_succ_iff_lt_or_eq.mp hc2.1 with hlt | heq
        · exact hlt
        · exfalso
          exact hg ⟨by omega, by omega⟩

theorem morphApply_getD (comb : ℕ → ℕ → ℕ) (init : ℕ) (data : Buf) (w h : ℕ)
    (hlen : data.length = 4 * w * h) (i : ℕ) :
    (morphApply comb init data w h).getD i 0 =
      if 1 ≤ i / 4 / w ∧ i / 4 / w + 1 < h ∧ 1 ≤ i / 4 % w ∧ i / 4 % w + 1 < w
          ∧ i % 4 < 3 then
        morphPixel comb init data w (i / 4 / w) (i / 4 % w)
      else data.getD i 0 := by
  unfold morphApply
  rw [morphRows_getD comb init data w h hlen h (le_refl h) i]
  by_cases hc : i / 4 / w < h ∧ 1 ≤ i / 4 / w ∧ i / 4 / w + 1 < h
      ∧ 1 ≤ i / 4 % w ∧ i / 4 % w + 1 < w ∧ i % 4 < 3
  · rw [if_pos hc, if_pos (by exact ⟨hc.2.1, hc.2.2.1, hc.2.2.2⟩)]
  · rw [if_neg hc, if_neg]
    intro hc2
    exact hc ⟨by omega, hc2⟩

theorem morphApply_length (comb : ℕ → ℕ → ℕ) (init : ℕ) (data : Buf) (w h : ℕ) :
    (morphApply comb init data w h).length = data.length := by
  unfold morphApply
  rw [foldl_length_inv _ _ _ (length_morphRow comb init data w h)]

theorem morphApply_interior (comb : ℕ → ℕ → ℕ) (init : ℕ) (data : Buf) (w h : ℕ)
    (hlen : data.length = 4 * w * h) (y x c : ℕ) (hy1 : 1 ≤ y) (hy2 : y + 1 < h)
    (hx1 : 1 ≤ x) (hx2 : x + 1 < w) (hc : c < 3) :
    (morphApply comb init data w h).getD ((y * w + x) * 4 + c) 0 =
      morphPixel comb init data w y x := by
  rw [morphApply_getD comb init data w h hlen]
  have hp : ((y * w + x) * 4 + c) / 4 = y * w + x := by omega
  have hm : ((y * w + x) * 4 + c) % 4 = c := by omega
  rw [hp, hm, encode_div w y x (by omega), encode_mod w y x (by omega),
    if_pos ⟨hy1, hy2, hx1, hx2, hc⟩]

theorem morphApply_frame (comb : ℕ → ℕ → ℕ) (init : ℕ) (data : Buf) (w h : ℕ)
    (hlen : data.length = 4 * w * h) (i : ℕ)
    (hni : ¬(1 ≤ i / 4 / w ∧ i / 4 / w + 1 < h ∧ 1 ≤ i / 4 % w ∧ i / 4 % w + 1 < w
      ∧ i % 4 < 3)) :
    (morphApply comb init data w h).getD i 0 = data.getD i 0 := by
  rw [morphApply_getD comb init data w h hlen, if_neg hni]

/-! ## Bounds for the structuring-element folds -/

theorem foldl_min_le_acc (f : ℤ × ℤ → ℕ) (l : List (ℤ × ℤ)) :
    ∀ acc, l.foldl (fun m d => Nat.min m (f d)) acc ≤ acc := by
  induction l with
  | nil => intro acc; exact le_refl _
  | cons a t ih =>
    intro acc
    rw [List.foldl_cons]
    exact le_trans (ih _) (Nat.min_le_left _ _)

theorem foldl_min_le_of_mem (f : ℤ × ℤ → ℕ) (l : List (ℤ × ℤ)) (d : ℤ × ℤ) :
    d ∈ l → ∀ acc, l.foldl (fun m e => Nat.min m (f e)) acc ≤ f d := by
  induction l with
  | nil => intro hd; cases hd
  | cons a t ih =>
    intro hd acc
    rw [List.foldl_cons]
    rcases List.mem_cons.mp hd with rfl | hmem
    · exact le_trans (foldl_min_le_acc f t _) (Nat.min_le_right _ _)
    · exact ih hmem _

theorem foldl_min_ge (f : ℤ × ℤ → ℕ) (l : List (ℤ × ℤ)) (v : ℕ) :
    (∀ d ∈ l, v ≤ f d) → ∀ acc, v ≤ acc →
      v ≤ l.foldl (fun m e => Nat.min m (f e)) acc := by
  induction l with
  | nil => intro _ acc hacc; exact hacc
  | cons a t ih =>
    intro hall acc hacc
    rw [List.foldl_cons]
    refine ih (fun d hd => hall d (List.mem_cons_of_mem a hd)) _ ?_
    exact le_min hacc (hall a (List.mem_cons_self a t))

theorem foldl_max_ge_acc (f : ℤ × ℤ → ℕ) (l : List (ℤ × ℤ)) :
    ∀ acc, acc ≤ l.foldl (fun m d => Nat.max m (f d)) acc := by
  induction l with
  | nil => intro acc; exact le_refl _
  | cons a t ih =>
    intro acc
    rw [List.foldl_cons]
    exact le_trans (Nat.le_max_left _ _) (ih _)

theorem foldl_max_ge_of_mem (f : ℤ × ℤ → ℕ) (l : List (ℤ × ℤ)) (d : ℤ × ℤ) :
    d ∈ l → ∀ acc, f d ≤ l.foldl (fun m e => Nat.max m (f e)) acc := by
  induction l with
  | nil => intro hd; cases hd
  | cons a t ih =>
    intro hd acc
    rw [List.foldl_cons]
    rcases List.mem_cons.mp hd with rfl | hmem
    · exact le_trans (Nat.le_max_right _ _) (foldl_max_ge_acc f t _)
    · exact ih hmem _

theorem foldl_comb_preserve (P : ℕ → Prop) (comb : ℕ → ℕ → ℕ)
    (hcomb : ∀ a b, P a → P b → P (comb a b)) (f : ℤ × ℤ → ℕ) (l : List (ℤ × ℤ)) :
    (∀ d ∈ l, P (f d)) → ∀ acc, P acc →
      P (l.foldl (fun m e => comb m (f e)) acc) := by
  induction l with
  | nil => intro _ acc hacc; exact hacc
  | cons a t ih =>
    intro hall acc hacc
    rw [List.foldl_cons]
    exact ih (fun d hd => hall d (List.mem_cons_of_mem a hd)) _
      (hcomb _ _ hacc (hall a (List.mem_cons_self a t)))

/-- Converting a structuring-element sample to its plain natural-number
index once the sampled coordinates are known to be in range. -/
theorem sampleRed_coords (orig : Buf) (w y x y' x' : ℕ) (dy dx : ℤ)
    (hy : (y' : ℤ) = y + dy) (hx : (x' : ℤ) = x + dx) :
    sampleRed orig w y x (dy, dx) = orig.getD ((y' * w + x') * 4) 0 := by
  show orig.getD (((((y : ℤ) + dy) * w + ((x : ℤ) + dx)) * 4).toNat) 0 = _
  congr 1
  have hidx : (((y : ℤ) + dy) * w + ((x : ℤ) + dx)) * 4 = ((y' * w + x') * 4 : ℕ) := by
    rw [← hy, ← hx]
    push_cast
    ring
  rw [hidx, Int.toNat_natCast]

/-- The structuring element is symmetric: it contains the negation of each
of its offsets. -/
theorem se_symm (d : ℤ × ℤ) (hd : d ∈ ELEMENTO_ESTRUTURANTE_3X3) :
    (-d.1, -d.2) ∈ ELEMENTO_ESTRUTURANTE_3X3 := by
  fin_cases hd <;> decide

/-! ## Claim theorems -/

/-- C6: for every buffer with `width ≥ 2` and `height ≥ 2`, erosion and
dilation preserve the buffer length, leave every alpha sample and every
sample of the outermost one-pixel border ring unchanged, and write at each
interior pixel's R, G, B channels exactly the min (erosion) resp. max
(dilation) over the structuring-element offsets of the snapshot input's
red channel. -/
theorem C6_morphology_frame (data : Buf) (w h : ℕ) (hw : 2 ≤ w) (hh : 2 ≤ h)
    (hlen : data.length = 4 * w * h) :
    ((aplicarErosao data w h).length = data.length
      ∧ (aplicarDilatacao data w h).length = data.length)
    ∧ (∀ i, i % 4 = 3 →
        (aplicarErosao data w h).getD i 0 = data.getD i 0
        ∧ (aplicarDilatacao data w h).getD i 0 = data.getD i 0)
    ∧ (∀ y x c, y < h → x < w → c < 4 → (y = 0 ∨ y = h - 1 ∨ x = 0 ∨ x = w - 1) →
        (aplicarErosao data w h).getD ((y * w + x) * 4 + c) 0
          = data.getD ((y * w + x) * 4 + c) 0
        ∧ (aplicarDilatacao data w h).getD ((y * w + x) * 4 + c) 0
          = data.getD ((y * w + x) * 4 + c) 0)
    ∧ (∀ y x c, 1 ≤ y → y + 1 < h → 1 ≤ x → x + 1 < w → c < 3 →
        (aplicarErosao data w h).getD ((y * w + x) * 4 + c) 0
          = morphPixel Nat.min 255 data w y x
        ∧ (aplicarDilatacao data w h).getD ((y * w + x) * 4 + c) 0
          = morphPixel Nat.max 0 data w y x) := by
  refine ⟨⟨morphApply_length _ _ _ _ _, morphApply_length _ _ _ _ _⟩, ?_, ?_, ?_⟩
  · intro i hi
    have hni : ¬(1 ≤ i / 4 / w ∧ i / 4 / w + 1 < h ∧ 1 ≤ i / 4 % w
        ∧ i / 4 % w + 1 < w ∧ i % 4 < 3) := by omega
    exact ⟨morphApply_frame _ _ _ _ _ hlen i hni, morphApply_frame _ _ _ _ _ hlen i hni⟩
  · intro y x c hy hx hc hborder
    have hp : ((y * w + x) * 4 + c) / 4 = y * w + x := by omega
    have hni : ¬(1 ≤ ((y * w + x) * 4 + c) / 4 / w
        ∧ ((y * w + x) * 4 + c) / 4 / w + 1 < h
        ∧ 1 ≤ ((y * w + x) * 4 + c) / 4 % w
        ∧ ((y * w + x) * 4 + c) / 4 % w + 1 < w
        ∧ ((y * w + x) * 4 + c) % 4 < 3) := by
      rw [hp, encode_div w y x hx, encode_mod w y x hx]
      omega
    exact ⟨morphApply_frame _ _ _ _ _ hlen _ hni, morphApply_frame _ _ _ _ _ hlen _ hni⟩
  · intro y x c hy1 hy2 hx1 hx2 hc
    exact ⟨morphApply_interior _ _ _ _ _ hlen y x c hy1 hy2 hx1 hx2 hc,
      morphApply_interior _ _ _ _ _ hlen y x c hy1 hy2 hx1 hx2 hc⟩

/-- Witness for C6: the 7×5 test image satisfies the hypotheses; its border
pixel `(0, 0)` passes through erosion unchanged and its interior pixel
`(2, 3)` receives the structuring-element minimum. -/
theorem C6_morphology_frame_witness :
    (aplicarErosao bufGap 7 5).getD 0 0 = bufGap.getD 0 0
    ∧ (aplicarErosao bufGap 7 5).getD ((2 * 7 + 3) * 4) 0
      = morphPixel Nat.min 255 bufGap 7 2 3 := by
  have h := C6_morphology_frame bufGap 7 5 (by omega) (by omega) (by decide)
  exact ⟨((h.2.2.1 0 0 0 (by omega) (by omega) (by omega) (Or.inl rfl)).1),
    ((h.2.2.2 2 3 0 (by omega) (by omega) (by omega) (by omega) (by omega)).1)⟩

theorem red_idx_binary (data : Buf) (w h : ℕ) (hlen : data.length = 4 * w * h)
    (hbin : BinaryRGB data) (y' x' : ℕ) (hy' : y' < h) (hx' : x' < w) :
    data.getD ((y' * w + x') * 4) 0 = 0 ∨ data.getD ((y' * w + x') * 4) 0 = 255 := by
  apply hbin
  · have := encode_lt w h y' x' hy' hx'
    rw [hlen, Nat.mul_assoc]
    omega
  · omega

theorem sampleRed_binary (data : Buf) (w h y x : ℕ) (hlen : data.length = 4 * w * h)
    (hbin : BinaryRGB data) (hy1 : 1 ≤ y) (hy2 : y + 1 < h) (hx1 : 1 ≤ x)
    (hx2 : x + 1 < w) :
    ∀ d ∈ ELEMENTO_ESTRUTURANTE_3X3,
      (sampleRed data w y x d = 0 ∨ sampleRed data w y x d = 255) := by
  intro d hd
  fin_cases hd
  · rw [sampleRed_coords data w y x (y - 1) (x - 1) (-1) (-1) (by omega) (by omega)]
    exact red_idx_binary data w h hlen hbin _ _ (by omega) (by omega)
  · rw [sampleRed_coords data w y x (y - 1) x (-1) 0 (by omega) (by omega)]
    exact red_idx_binary data w h hlen hbin _ _ (by omega) (by omega)
  · rw [sampleRed_coords data w y x (y - 1) (x + 1) (-1) 1 (by omega) (by omega)]
    exact red_idx_binary data w h hlen hbin _ _ (by omega) (by omega)
  · rw [sampleRed_coords data w y x y (x - 1) 0 (-1) (by omega) (by omega)]
    exact red_idx_binary data w h hlen hbin _ _ (by omega) (by omega)
  · rw [sampleRed_coords data w y x y x 0 0 (by omega) (by omega)]
    exact red_idx_binary data w h hlen hbin _ _ (by omega) (by omega)
  · rw [sampleRed_coords data w y x y (x + 1) 0 1 (by omega) (by omega)]
    exact red_idx_binary data w h hlen hbin _ _ (by omega) (by omega)
  · rw [sampleRed_coords data w y x (y + 1) (x - 1) 1 (-1) (by omega) (by omega)]
    exact red_idx_binary data w h hlen hbin _ _ (by omega) (by omega)
  · rw [sampleRed_coords data w y x (y + 1) x 1 0 (by omega) (by omega)]
    exact red_idx_binary data w h hlen hbin _ _ (by omega) (by omega)
  · rw [sampleRed_coords data w y x (y + 1) (x + 1) 1 1 (by omega) (by omega)]
    exact red_idx_binary data w h hlen hbin _ _ (by omega) (by omega)

theorem morphApply_binary (comb : ℕ → ℕ → ℕ) (init : ℕ)
    (hcomb : ∀ a b, (a = 0 ∨ a = 255) → (b = 0 ∨ b = 255) →
      (comb a b = 0 ∨ comb a b = 255))
    (hinit : init = 0 ∨ init = 255) (data : Buf) (w h : ℕ)
    (hlen : data.length = 4 * w * h) (hbin : BinaryRGB data) :
    BinaryRGB (morphApply comb init data w h) := by
  intro i hi h3
  rw [morphApply_getD comb init data w h hlen i]
  by_cases hc : 1 ≤ i / 4 / w ∧ i / 4 / w + 1 < h ∧ 1 ≤ i / 4 % w ∧ i / 4 % w + 1 < w
      ∧ i % 4 < 3
  · rw [if_pos hc]
    exact foldl_comb_preserve _ comb hcomb _ _
      (sampleRed_binary data w h _ _ hlen hbin hc.1 hc.2.1 hc.2.2.1 hc.2.2.2.1)
      init hinit
  · rw [if_neg hc]
    exact hbin i (by rw [← morphApply_length comb init data w h]; exact hi) h3

/-- C10: erosion and dilation (and hence opening and closing) preserve
binarity — if every red, green and blue sample of the input is 0 or 255,
the same holds for the output. -/
theorem C10_morphology_preserves_binarity (data : Buf) (w h : ℕ)
    (hlen : data.length = 4 * w * h) (hbin : BinaryRGB data) :
    BinaryRGB (aplicarErosao data w h) ∧ BinaryRGB (aplicarDilatacao data w h)
    ∧ BinaryRGB (aplicarAbertura data w h) ∧ BinaryRGB (aplicarFechamento data w h) := by
  have hmin : ∀ a b : ℕ, (a = 0 ∨ a = 255) → (b = 0 ∨ b = 255) →
      (Nat.min a b = 0 ∨ Nat.min a b = 255) := by
    intro a b ha hb
    rcases ha with rfl | rfl <;> rcases hb with rfl | rfl <;> decide
  have hmax : ∀ a b : ℕ, (a = 0 ∨ a = 255) → (b = 0 ∨ b = 255) →
      (Nat.max a b = 0 ∨ Nat.max a b = 255) := by
    intro a b ha hb
    rcases ha with rfl | rfl <;> rcases hb with rfl | rfl <;> decide
  have hero : BinaryRGB (aplicarErosao data w h) :=
    morphApply_binary Nat.min 255 hmin (Or.inr rfl) data w h hlen hbin
  have hdil : BinaryRGB (aplicarDilatacao data w h) :=
    morphApply_binary Nat.max 0 hmax (Or.inl rfl) data w h hlen hbin
  have herolen : (aplicarErosao data w h).length = 4 * w * h := by
    unfold aplicarErosao
    rw [morphApply_length, hlen]
  have hdillen : (aplicarDilatacao data w h).length = 4 * w * h := by
    unfold aplicarDilatacao
    rw [morphApply_length, hlen]
  exact ⟨hero, hdil,
    morphApply_binary Nat.max 0 hmax (Or.inl rfl) _ w h herolen hero,
    morphApply_binary Nat.min 255 hmin (Or.inr rfl) _ w h hdillen hdil⟩

/-- Witness for C10: the binarized 7×5 test image keeps binarity through
all four morphological operators. -/
theorem C10_morphology_preserves_binarity_witness :
    BinaryRGB (aplicarErosao bufGap 7 5) ∧ BinaryRGB (aplicarDilatacao bufGap 7 5)
    ∧ BinaryRGB (aplicarAbertura bufGap 7 5) ∧ BinaryRGB (aplicarFechamento bufGap 7 5) :=
  C10_morphology_preserves_binarity bufGap 7 5 (by decide) (by decide)

theorem foldl_max_le (f : ℤ × ℤ → ℕ) (l : List (ℤ × ℤ)) (v : ℕ) :
    (∀ d ∈ l, f d ≤ v) → ∀ acc, acc ≤ v →
      l.foldl (fun m e => Nat.max m (f e)) acc ≤ v := by
  induction l with
  | nil => intro _ acc hacc; exact hacc
  | cons a t ih =>
    intro hall acc hacc
    rw [List.foldl_cons]
    refine ih (fun d hd => hall d (List.mem_cons_of_mem a hd)) _ ?_
    exact max_le hacc (hall a (List.mem_cons_self a t))

theorem morphApply_red (comb : ℕ → ℕ → ℕ) (init : ℕ) (data : Buf) (w h : ℕ)
    (hlen : data.length = 4 * w * h) (y x : ℕ) (hy1 : 1 ≤ y) (hy2 : y + 1 < h)
    (hx1 : 1 ≤ x) (hx2 : x + 1 < w) :
    (morphApply comb init data w h).getD ((y * w + x) * 4) 0 =
      morphPixel comb init data w y x := by
  have h0 := morphApply_interior comb init data w h hlen y x 0 hy1 hy2 hx1 hx2 (by omega)
  simpa using h0

/-- Every structuring-element sample of the eroded (min-filtered) image at a
pixel whose whole 3x3 neighbourhood is interior is bounded by the original
red value of that pixel (the symmetric offset points back at the centre). -/
theorem eros_sample_le (data : Buf) (w h y x : ℕ) (hlen : data.length = 4 * w * h)
    (h2y : 2 ≤ y) (hy3 : y + 3 ≤ h) (h2x : 2 ≤ x) (hx3 : x + 3 ≤ w) :
    ∀ d ∈ ELEMENTO_ESTRUTURANTE_3X3,
      sampleRed (aplicarErosao data w h) w y x d ≤ data.getD ((y * w + x) * 4) 0 := by
  intro d hd
  unfold aplicarErosao
  fin_cases hd
  · rw [sampleRed_coords _ w y x (y - 1) (x - 1) (-1) (-1) (by omega) (by omega)]
    rw [morphApply_red Nat.min 255 data w h hlen (y - 1) (x - 1) (by omega) (by omega)
      (by omega) (by omega)]
    calc morphPixel Nat.min 255 data w (y - 1) (x - 1)
        ≤ sampleRed data w (y - 1) (x - 1) (1, 1) := by
          unfold morphPixel
          exact foldl_min_le_of_mem _ _ _ (by decide) 255
      _ = data.getD ((y * w + x) * 4) 0 :=
          sampleRed_coords data w (y - 1) (x - 1) y x (1) (1) (by omega) (by omega)
  · rw [sampleRed_coords _ w y x (y - 1) x (-1) (0) (by omega) (by omega)]
    rw [morphApply_red Nat.min 255 data w h hlen (y - 1) x (by omega) (by omega)
      (by omega) (by omega)]
    calc morphPixel Nat.min 255 data w (y - 1) x
        ≤ sampleRed data w (y - 1) x (1, 0) := by
          unfold morphPixel
          exact foldl_min_le_of_mem _ _ _ (by decide) 255
      _ = data.getD ((y * w + x) * 4) 0 :=
          sampleRed_coords data w (y - 1) x y x (1) (0) (by omega) (by omega)
  · rw [sampleRed_coords _ w y x (y - 1) (x + 1) (-1) (1) (by omega) (by omega)]
    rw [morphApply_red Nat.min 255 data w h hlen (y - 1) (x + 1) (by omega) (by omega)
      (by omega) (by omega)]
    calc morphPixel Nat.min 255 data w (y - 1) (x + 1)
        ≤ sampleRed data w (y - 1) (x + 1) (1, -1) := by
          unfold morphPixel
          exact foldl_min_le_of_mem _ _ _ (by decide) 255
      _ = data.getD ((y * w + x) * 4) 0 :=
          sampleRed_coords data w (y - 1) (x + 1) y x (1) (-1) (by omega) (by omega)
  · rw [sampleRed_coords _ w y x y (x - 1) (0) (-1) (by omega) (by omega)]
    rw [morphApply_red Nat.min 255 data w h hlen y (x - 1) (by omega) (by omega)
      (by omega) (by omega)]
    calc morphPixel Nat.min 255 data w y (x - 1)
        ≤ sampleRed data w y (x - 1) (0, 1) := by
          unfold morphPixel
          exact foldl_min_le_of_mem _ _ _ (by decide) 255
      _ = data.getD ((y * w + x) * 4) 0 :=
          sampleRed_coords data w y (x - 1) y x (0) (1) (by omega) (by omega)
  · rw [sampleRed_coords _ w y x y x (0) (0) (by omega) (by omega)]
    rw [morphApply_red Nat.min 255 data w h hlen y x (by omega) (by omega)
      (by omega) (by omega)]
    calc morphPixel Nat.min 255 data w y x
        ≤ sampleRed data w y x (0, 0) := by
          unfold morphPixel
          exact foldl_min_le_of_mem _ _ _ (by decide) 255
      _ = data.getD ((y * w + x) * 4) 0 :=
          sampleRed_coords data w y x y x (0) (0) (by omega) (by omega)
  · rw [sampleRed_coords _ w y x y (x + 1) (0) (1) (by omega) (by omega)]
    rw [morphApply_red Nat.min 255 data w h hlen y (x + 1) (by omega) (by omega)
      (by omega) (by omega)]
    calc morphPixel Nat.min 255 data w y (x + 1)
        ≤ sampleRed data w y (x + 1) (0, -1) := by
          unfold morphPixel
          exact foldl_min_le_of_mem _ _ _ (by decide) 255
      _ = data.getD ((y * w + x) * 4) 0 :=
          sampleRed_coords data w y (x + 1) y x (0) (-1) (by omega) (by omega)
  · rw [sampleRed_coords _ w y x (y + 1) (x - 1) (1) (-1) (by omega) (by omega)]
    rw [morphApply_red Nat.min 255 data w h hlen (y + 1) (x - 1) (by omega) (by omega)
      (by omega) (by omega)]
    calc morphPixel Nat.min 255 data w (y + 1) (x - 1)
        ≤ sampleRed data w (y + 1) (x - 1) (-1, 1) := by
          unfold morphPixel
          exact foldl_min_le_of_mem _ _ _ (by decide) 255
      _ = data.getD ((y * w + x) * 4) 0 :=
          sampleRed_coords data w (y + 1) (x - 1) y x (-1) (1) (by omega) (by omega)
  · rw [sampleRed_coords _ w y x (y + 1) x (1) (0) (by omega) (by omega)]
    rw [morphApply_red Nat.min 255 data w h hlen (y + 1) x (by omega) (by omega)
      (by omega) (by omega)]
    calc morphPixel Nat.min 255 data w (y + 1) x
        ≤ sampleRed data w (y + 1) x (-1, 0) := by
          unfold morphPixel
          exact foldl_min_le_of_mem _ _ _ (by decide) 255
      _ = data.getD ((y * w + x) * 4) 0 :=
          sampleRed_coords data w (y + 1) x y x (-1) (0) (by omega) (by omega)
  · rw [sampleRed_coords _ w y x (y + 1) (x + 1) (1) (1) (by omega) (by omega)]
    rw [morphApply_red Nat.min 255 data w h hlen (y + 1) (x + 1) (by omega) (by omega)
      (by omega) (by omega)]
    calc morphPixel Nat.min 255 data w (y + 1) (x + 1)
        ≤ sampleRed data w (y + 1) (x + 1) (-1, -1) := by
          unfold morphPixel
          exact foldl_min_le_of_mem _ _ _ (by decide) 255
      _ = data.getD ((y * w + x) * 4) 0 :=
          sampleRed_coords data w (y + 1) (x + 1) y x (-1) (-1) (by omega) (by omega)

/-- Dually, every structuring-element sample of the dilated (max-filtered)
image at such a pixel dominates the original red value of that pixel. -/
theorem dilat_sample_ge (data : Buf) (w h y x : ℕ) (hlen : data.length = 4 * w * h)
    (h2y : 2 ≤ y) (hy3 : y + 3 ≤ h) (h2x : 2 ≤ x) (hx3 : x + 3 ≤ w) :
    ∀ d ∈ ELEMENTO_ESTRUTURANTE_3X3,
      data.getD ((y * w + x) * 4) 0 ≤ sampleRed (aplicarDilatacao data w h) w y x d := by
  intro d hd
  unfold aplicarDilatacao
  fin_cases hd
  · rw [sampleRed_coords _ w y x (y - 1) (x - 1) (-1) (-1) (by omega) (by omega)]
    rw [morphApply_red Nat.max 0 data w h hlen (y - 1) (x - 1) (by omega) (by omega)
      (by omega) (by omega)]
    calc data.getD ((y * w + x) * 4) 0
        = sampleRed data w (y - 1) (x - 1) (1, 1) :=
          (sampleRed_coords data w (y - 1) (x - 1) y x (1) (1) (by omega) (by omega)).symm
      _ ≤ morphPixel Nat.max 0 data w (y - 1) (x - 1) := by
          unfold morphPixel
          exact foldl_max_ge_of_mem _ _ _ (by decide) 0
  · rw [sampleRed_coords _ w y x (y - 1) x (-1) (0) (by omega) (by omega)]
    rw [morphApply_red Nat.max 0 data w h hlen (y - 1) x (by omega) (by omega)
      (by omega) (by omega)]
    calc data.getD ((y * w + x) * 4) 0
        = sampleRed data w (y - 1) x (1, 0) :=
          (sampleRed_coords data w (y - 1) x y x (1) (0) (by omega) (by omega)).symm
      _ ≤ morphPixel Nat.max 0 data w (y - 1) x := by
          unfold morphPixel
          exact foldl_max_ge_of_mem _ _ _ (by decide) 0
  · rw [sampleRed_coords _ w y x (y - 1) (x + 1) (-1) (1) (by omega) (by omega)]
    rw [morphApply_red Nat.max 0 data w h hlen (y - 1) (x + 1) (by omega) (by omega)
      (by omega) (by omega)]
    calc data.getD ((y * w + x) * 4) 0
        = sampleRed data w (y - 1) (x + 1) (1, -1) :=
          (sampleRed_coords data w (y - 1) (x + 1) y x (1) (-1) (by omega) (by omega)).symm
      _ ≤ morphPixel Nat.max 0 data w (y - 1) (x + 1) := by
          unfold morphPixel
          exact foldl_max_ge_of_mem _ _ _ (by decide) 0
  · rw [sampleRed_coords _ w y x y (x - 1) (0) (-1) (by omega) (by omega)]
    rw [morphApply_red Nat.max 0 data w h hlen y (x - 1) (by omega) (by omega)
      (by omega) (by omega)]
    calc data.getD ((y * w + x) * 4) 0
        = sampleRed data w y (x - 1) (0, 1) :=
          (sampleRed_coords data w y (x - 1) y x (0) (1) (by omega) (by omega)).symm
      _ ≤ morphPixel Nat.max 0 data w y (x - 1) := by
          unfold morphPixel
          exact foldl_max_ge_of_mem _ _ _ (by decide) 0
  · rw [sampleRed_coords _ w y x y x (0) (0) (by omega) (by omega)]
    rw [morphApply_red Nat.max 0 data w h hlen y x (by omega) (by omega)
      (by omega) (by omega)]
    calc data.getD ((y * w + x) * 4) 0
        = sampleRed data w y x (0, 0) :=
          (sampleRed_coords data w y x y x (0) (0) (by omega) (by omega)).symm
      _ ≤ morphPixel Nat.max 0 data w y x := by
          unfold morphPixel
          exact foldl_max_ge_of_mem _ _ _ (by decide) 0
  · rw [sampleRed_coords _ w y x y (x + 1) (0) (1) (by omega) (by omega)]
    rw [morphApply_red Nat.max 0 data w h hlen y (x + 1) (by omega) (by omega)
      (by omega) (by omega)]
    calc data.getD ((y * w + x) * 4) 0
        = sampleRed data w y (x + 1) (0, -1) :=
          (sampleRed_coords data w y (x + 1) y x (0) (-1) (by omega) (by omega)).symm
      _ ≤ morphPixel Nat.max 0 data w y (x + 1) := by
          unfold morphPixel
          exact foldl_max_ge_of_mem _ _ _ (by decide) 0
  · rw [sampleRed_coords _ w y x (y + 1) (x - 1) (1) (-1) (by omega) (by omega)]
    rw [morphApply_red Nat.max 0 data w h hlen (y + 1) (x - 1) (by omega) (by omega)
      (by omega) (by omega)]
    calc data.getD ((y * w + x) * 4) 0
        = sampleRed data w (y + 1) (x - 1) (-1, 1) :=
          (sampleRed_coords data w (y + 1) (x - 1) y x (-1) (1) (by omega) (by omega)).symm
      _ ≤ morphPixel Nat.max 0 data w (y + 1) (x - 1) := by
          unfold morphPixel
          exact foldl_max_ge_of_mem _ _ _ (by decide) 0
  · rw [sampleRed_coords _ w y x (y + 1) x (1) (0) (by omega) (by omega)]
    rw [morphApply_red Nat.max 0 data w h hlen (y + 1) x (by omega) (by omega)
      (by omega) (by omega)]
    calc data.getD ((y * w + x) * 4) 0
        = sampleRed data w (y + 1) x (-1, 0) :=
          (sampleRed_coords data w (y + 1) x y x (-1) (0) (by omega) (by omega)).symm
      _ ≤ morphPixel Nat.max 0 data w (y + 1) x := by
          unfold morphPixel
          exact foldl_max_ge_of_mem _ _ _ (by decide) 0
  · rw [sampleRed_coords _ w y x (y + 1) (x + 1) (1) (1) (by omega) (by omega)]
    rw [morphApply_red Nat.max 0 data w h hlen (y + 1) (x + 1) (by omega) (by omega)
      (by omega) (by omega)]
    calc data.getD ((y * w + x) * 4) 0
        = sampleRed data w (y + 1) (x + 1) (-1, -1) :=
          (sampleRed_coords data w (y + 1) (x + 1) y x (-1) (-1) (by omega) (by omega)).symm
      _ ≤ morphPixel Nat.max 0 data w (y + 1) (x + 1) := by
          unfold morphPixel
          exact foldl_max_ge_of_mem _ _ _ (by decide) 0

/-- C3 counterexample: the claimed sandwich
`foreground(opening) ⊆ foreground(original) ⊆ foreground(closing)` (with
foreground = red 0, as in the labeler) is false for the code: on the
binarized 7×5 image with black pixels `(2,2)` and `(2,4)`, `aplicarAbertura`
turns the white gap pixel `(2,3)` black, so opening adds a foreground pixel
that the original does not have. -/
theorem C3_counterexample :
    ¬(∀ (data : Buf) (w h : ℕ), data.length = 4 * w * h → BinaryRGB data →
      ∀ y x, y < h → x < w →
        ((aplicarAbertura data w h).getD ((y * w + x) * 4) 0 = 0 →
          data.getD ((y * w + x) * 4) 0 = 0)
        ∧ (data.getD ((y * w + x) * 4) 0 = 0 →
          (aplicarFechamento data w h).getD ((y * w + x) * 4) 0 = 0)) := by
  intro hclaim
  have h := (hclaim bufGap 7 5 (by decide) (by decide) 2 3 (by decide) (by decide)).1
  have h0 := h (by decide)
  exact absurd h0 (by decide)

/-- C3 (amended): because the code's foreground is black (red = 0) while its
`erosão` is a red-channel min (which grows the black set) and its
`dilatação` a max (which shrinks it), the inclusions hold in the reversed
direction, at every pixel whose full 3×3 neighbourhood lies in the interior:
`foreground(fechamento) ⊆ foreground(original) ⊆ foreground(abertura)`. -/
theorem C3_inclusions_reversed (data : Buf) (w h : ℕ) (hlen : data.length = 4 * w * h)
    (_hbin : BinaryRGB data) (y x : ℕ) (h2y : 2 ≤ y) (hy3 : y + 3 ≤ h)
    (h2x : 2 ≤ x) (hx3 : x + 3 ≤ w) :
    ((aplicarFechamento data w h).getD ((y * w + x) * 4) 0 = 0 →
      data.getD ((y * w + x) * 4) 0 = 0)
    ∧ (data.getD ((y * w + x) * 4) 0 = 0 →
      (aplicarAbertura data w h).getD ((y * w + x) * 4) 0 = 0) := by
  have hdillen : (aplicarDilatacao data w h).length = 4 * w * h := by
    unfold aplicarDilatacao
    rw [morphApply_length, hlen]
  have heroslen : (aplicarErosao data w h).length = 4 * w * h := by
    unfold aplicarErosao
    rw [morphApply_length, hlen]
  constructor
  · intro h0
    by_contra hne
    have h1 : 1 ≤ data.getD ((y * w + x) * 4) 0 := by omega
    have hall : ∀ d ∈ ELEMENTO_ESTRUTURANTE_3X3,
        1 ≤ sampleRed (aplicarDilatacao data w h) w y x d :=
      fun d hd => le_trans h1 (dilat_sample_ge data w h y x hlen h2y hy3 h2x hx3 d hd)
    have hmin : 1 ≤ morphPixel Nat.min 255 (aplicarDilatacao data w h) w y x := by
      unfold morphPixel
      exact foldl_min_ge _ _ 1 hall 255 (by omega)
    have hchar : (aplicarFechamento data w h).getD ((y * w + x) * 4) 0 =
        morphPixel Nat.min 255 (aplicarDilatacao data w h) w y x := by
      unfold aplicarFechamento
      exact morphApply_red Nat.min 255 _ w h hdillen y x (by omega) (by omega)
        (by omega) (by omega)
    omega
  · intro h0
    have hall : ∀ d ∈ ELEMENTO_ESTRUTURANTE_3X3,
        sampleRed (aplicarErosao data w h) w y x d ≤ 0 := by
      intro d hd
      have := eros_sample_le data w h y x hlen h2y hy3 h2x hx3 d hd
      omega
    have hmax : morphPixel Nat.max 0 (aplicarErosao data w h) w y x ≤ 0 := by
      unfold morphPixel
      exact foldl_max_le _ _ 0 hall 0 (le_refl 0)
    have hchar : (aplicarAbertura data w h).getD ((y * w + x) * 4) 0 =
        morphPixel Nat.max 0 (aplicarErosao data w h) w y x := by
      unfold aplicarAbertura
      exact morphApply_red Nat.max 0 _ w h heroslen y x (by omega) (by omega)
        (by omega) (by omega)
    omega

/-- Witness for the amended C3 at the deep-interior pixel `(2, 2)` of the
7×5 test image. -/
theorem C3_inclusions_reversed_witness :
    ((aplicarFechamento bufGap 7 5).getD ((2 * 7 + 2) * 4) 0 = 0 →
      bufGap.getD ((2 * 7 + 2) * 4) 0 = 0)
    ∧ (bufGap.getD ((2 * 7 + 2) * 4) 0 = 0 →
      (aplicarAbertura bufGap 7 5).getD ((2 * 7 + 2) * 4) 0 = 0) :=
  C3_inclusions_reversed bufGap 7 5 (by decide) (by decide) 2 2 (by decide) (by decide)
    (by decide) (by decide)

/-! ## Grayscale idempotence -/

theorem roundHalfEven_natCast (n : ℕ) : roundHalfEven (n : ℚ) = n := by
  unfold roundHalfEven
  rw [Int.floor_natCast]
  norm_num

theorem clampU8_le_255 (q : ℚ) : clampU8 q ≤ 255 := by
  unfold clampU8
  have h1 : max 0 (min 255 (roundHalfEven q)) ≤ (255 : ℤ) :=
    max_le (by norm_num) (min_le_left _ _)
  omega

theorem clampU8_natCast (n : ℕ) (h : n ≤ 255) : clampU8 (n : ℚ) = n := by
  unfold clampU8
  rw [roundHalfEven_natCast]
  rw [min_eq_right (by exact_mod_cast h), max_eq_right (Int.natCast_nonneg n),
    Int.toNat_natCast]

theorem lum_self (g : ℕ) : lum g g g = (g : ℚ) := by
  unfold lum
  field_simp
  ring

theorem gray_pixel_idem (r g b : ℕ) :
    clampU8 (lum (clampU8 (lum r g b)) (clampU8 (lum r g b)) (clampU8 (lum r g b)))
      = clampU8 (lum r g b) := by
  rw [lum_self, clampU8_natCast _ (clampU8_le_255 _)]

/-- C4: grayscale conversion is idempotent — applying
`converterParaGrayscale` twice yields the same buffer as applying it once
(the luma weights sum to exactly 1, so a pixel already equal in R, G, B is
mapped to itself). -/
theorem C4_grayscale_idempotent :
    (data : Buf) → converterParaGrayscale (converterParaGrayscale data)
      = converterParaGrayscale data
  | [] => rfl
  | [_] => rfl
  | [_, _] => rfl
  | [_, _, _] => rfl
  | r :: g :: b :: a :: rest => by
      simp only [converterParaGrayscale]
      rw [gray_pixel_idem r g b, C4_grayscale_idempotent rest]

/-! ## Contrast guard -/

/-- C5 counterexample: invoking the contrast operator with
`contrastAmount = 259` is NOT rejected as `InvalidParameter` — the source
has no validation whatsoever — even though the factor denominator
`255 * (259 - 259)` is exactly zero, i.e. the division is reached. -/
theorem C5_counterexample :
    handleContraste 259 [128, 128, 128, 255] ≠ Except.error PDIError.invalidParameter
    ∧ contrastDenominator 259 = 0 := by
  constructor
  · simp [handleContraste]
  · norm_num [contrastDenominator]

/-- C5 (amended): the contrast handler performs no parameter validation and
has no error path — it returns a result for every contrast amount,
including 259 (where the factor denominator is zero).  The repository only
ever invokes it with the hard-coded `contraste = 30`, for which the
denominator `255 * (259 - 30)` is nonzero, so the division by zero never
occurs in the program as written. -/
theorem C5_contrast_unguarded (contraste : ℚ) (data : Buf) :
    (handleContraste contraste data).isOk = true
    ∧ contrastDenominator 30 ≠ 0 ∧ contrastDenominator 259 = 0 := by
  refine ⟨rfl, ?_, ?_⟩
  · norm_num [contrastDenominator]
  · norm_num [contrastDenominator]

/-! ## Domino pipeline with height 6 -/

theorem getD_map_range {α} (n : ℕ) (f : ℕ → α) (i : ℕ) (d : α) :
    ((List.range n).map f).getD i d = if i < n then f i else d := by
  by_cases h : i < n
  · rw [if_pos h, List.getD_eq_getElem _ _ (by simpa using h)]
    simp
  · rw [if_neg h, List.getD_eq_default]
    simpa using h

theorem foldl_fix {α β : Type} (f : α → β → α) (l : List β) (a : α)
    (hf : ∀ b ∈ l, f a b = a) : l.foldl f a = a := by
  induction l with
  | nil => rfl
  | cons b t ih =>
    rw [List.foldl_cons, hf b (List.mem_cons_self b t)]
    exact ih (fun c hc => hf c (List.mem_cons_of_mem b hc))

/-- If no scanned pixel of the buffer reads as foreground, the labelling
scan never fires a flood fill and returns the untouched state. -/
theorem rotularScan_blank (data : Buf) (w h : ℕ)
    (hwhite : ∀ y x, y < h → x < w → data.getD ((y * w + x) * 4) 255 ≠ 0) :
    rotularScan data w h = (initLabels w h, 1) := by
  unfold rotularScan
  apply foldl_fix
  intro y hy
  unfold rotRow
  apply foldl_fix
  intro x hx
  unfold rotCell
  rw [if_neg]
  intro hcon
  exact hwhite y x (List.mem_range.mp hy) (List.mem_range.mp hx) hcon.1

theorem rotularComponentes_blank (data : Buf) (w h : ℕ)
    (hwhite : ∀ y x, y < h → x < w → data.getD ((y * w + x) * 4) 255 ≠ 0) :
    rotularComponentes data w h = (initLabels w h, 0) := by
  unfold rotularComponentes
  dsimp only
  rw [rotularScan_blank data w h hwhite]
  rfl

theorem filtrar_zero_components (labels : LabelGrid) (amin : ℕ) :
    (filtrarComponentesPorArea labels 0 amin).2 = 0 := rfl

/-- With height 6 the divider band `[0, 6]` covers every row, so both split
buffers read as background at every scanned pixel. -/
theorem dominoSplit_h6_white (data : Buf) (w : ℕ) :
    (∀ y x, y < 6 → x < w → (dominoSplit data w 6).1.getD ((y * w + x) * 4) 255 ≠ 0)
    ∧ (∀ y x, y < 6 → x < w → (dominoSplit data w 6).2.getD ((y * w + x) * 4) 255 ≠ 0) := by
  constructor
  · intro y x hy hx
    show ((List.range data.length).map _).getD ((y * w + x) * 4) 255 ≠ 0
    rw [getD_map_range]
    by_cases hin : (y * w + x) * 4 < data.length
    · rw [if_pos hin]
      have hplt : (y * w + x) < w * 6 := encode_lt w 6 y x hy hx
      have hp : ((y * w + x) * 4) / 4 = y * w + x := by omega
      rw [hp, if_pos hplt, encode_div w y x hx]
      rw [if_neg]
      · omega
      · simp only [detectarLinhaDivisoria, margemLinhaDivisoria]
        omega
    · rw [if_neg hin]
      omega
  · intro y x hy hx
    show ((List.range data.length).map _).getD ((y * w + x) * 4) 255 ≠ 0
    rw [getD_map_range]
    by_cases hin : (y * w + x) * 4 < data.length
    · rw [if_pos hin]
      have hplt : (y * w + x) < w * 6 := encode_lt w 6 y x hy hx
      have hp : ((y * w + x) * 4) / 4 = y * w + x := by omega
      rw [hp, if_pos hplt, encode_div w y x hx]
      rw [if_neg]
      · omega
      · simp only [detectarLinhaDivisoria, margemLinhaDivisoria]
        omega
    · rw [if_neg hin]
      omega

/-- On any image of height 6 the domino pipeline returns `(0, 0)`: the
divider sits at row `floor(6/2) = 3` and the hard-coded margin 3 makes the
band `[divider-margin, divider+margin] = [0, 6]` swallow every row, so both
halves are fully white and no component survives. -/
theorem domino_h6_blank (data : Buf) (w : ℕ) :
    handleAnaliseDominoCore data w 6 = (0, 0) := by
  unfold handleAnaliseDominoCore
  dsimp only
  have hw := dominoSplit_h6_white
    (aplicarAbertura (binarizarImagem 128 (converterParaGrayscale data)) w 6) w
  rw [rotularComponentes_blank _ w 6 hw.1, rotularComponentes_blank _ w 6 hw.2]
  rw [filtrar_zero_components]
  decide

/-- C1 counterexample: on the closest instantiable form of the spec's
end-to-end scenario — a 10×6 all-white image with two 3-wide, 2-tall black
rectangles in rows 0-1 and rows 4-5 (a 3×3 square cannot lie entirely
within two rows) — the pipeline as written returns `(0, 0)`, not the
claimed `pontosSuperior = 1`, `pontosInferior = 0`: the margin is the
hard-coded 3 (not the claim's 1), so the divider band `[0, 6]` blanks every
row of both halves. -/
theorem C1_counterexample :
    handleAnaliseDominoCore bufDomino 10 6 = (0, 0)
    ∧ handleAnaliseDominoCore bufDomino 10 6 ≠ (1, 0) := by
  have h := domino_h6_blank bufDomino 10
  refine ⟨h, ?_⟩
  rw [h]
  decide

/-- C1 (amended): with the code's hard-coded margin 3 and divider
`floor(6/2) = 3`, every image of height 6 — the scenario image included —
yields `pontosSuperior = 0` and `pontosInferior = max(0, 0 - 1) = 0`,
because rows `0..5` all lie within `[divider - margin, divider + margin]`
and both halves are blanked to white before labelling. -/
theorem C1_domino_scenario (data : Buf) (w : ℕ) :
    handleAnaliseDominoCore data w 6 = (0, 0) :=
  domino_h6_blank data w

/-- C7: on a binarized 10×5 buffer containing exactly two disjoint 3×3
black blocks separated by two background columns the labeler returns
`componentes = 2`, and on a fully white buffer it returns `componentes = 0`
(instantiating the spec's labeler test scenario). -/
theorem C7_labeler_counts :
    (rotularComponentes bufTwoBlocks 10 5).2 = 2
    ∧ (rotularComponentes bufWhite 10 5).2 = 0 := by
  decide

/-! ## Zhang-Suen: the termination measure decreases -/

theorem rowCount_set0_le (row : List ℕ) : ∀ x,
    ((row.set x 0).countP (fun v => v = 1)) ≤ row.countP (fun v => v = 1) := by
  induction row with
  | nil => intro x; simp
  | cons a t ih =>
    intro x
    cases x with
    | zero =>
      simp only [List.set_cons_zero, List.countP_cons]
      norm_num
    | succ x =>
      simp only [List.set_cons_succ, List.countP_cons]
      have := ih x
      omega

theorem rowCount_set0_lt (row : List ℕ) : ∀ x, row.getD x 0 = 1 →
    ((row.set x 0).countP (fun v => v = 1)) < row.countP (fun v => v = 1) := by
  induction row with
  | nil => intro x hx; simp at hx
  | cons a t ih =>
    intro x hx
    cases x with
    | zero =>
      simp only [List.getD_cons_zero] at hx
      simp only [List.set_cons_zero, List.countP_cons, hx]
      norm_num
    | succ x =>
      simp only [List.getD_cons_succ] at hx
      simp only [List.set_cons_succ, List.countP_cons]
      have := ih x hx
      omega

theorem countOnes_set_le (g : Grid) : ∀ (y : ℕ) (r' : List ℕ),
    r'.countP (fun v => v = 1) ≤ (g.getD y []).countP (fun v => v = 1) →
    countOnes (g.set y r') ≤ countOnes g := by
  induction g with
  | nil => intro y r' _; simp [countOnes]
  | cons a t ih =>
    intro y r' hr
    cases y with
    | zero =>
      simp only [List.getD_cons_zero] at hr
      simp only [List.set_cons_zero, countOnes, List.map_cons, List.sum_cons]
      omega
    | succ y =>
      simp only [List.getD_cons_succ] at hr
      simp only [List.set_cons_succ, countOnes, List.map_cons, List.sum_cons]
      have := ih y r' hr
      simp only [countOnes] at this
      omega

theorem countOnes_set_lt (g : Grid) : ∀ (y : ℕ) (r' : List ℕ),
    r'.countP (fun v => v = 1) < (g.getD y []).countP (fun v => v = 1) →
    y < g.length →
    countOnes (g.set y r') < countOnes g := by
  induction g with
  | nil => intro y r' _ hy; simp at hy
  | cons a t ih =>
    intro y r' hr hy
    cases y with
    | zero =>
      simp only [List.getD_cons_zero] at hr
      simp only [List.set_cons_zero, countOnes, List.map_cons, List.sum_cons]
      omega
    | succ y =>
      simp only [List.getD_cons_succ] at hr
      simp only [List.set_cons_succ, countOnes, List.map_cons, List.sum_cons]
      have := ih y r' hr (by simpa using Nat.lt_of_succ_lt_succ hy)
      simp only [countOnes] at this
      omega

theorem countOnes_clear_le (l : List (ℕ × ℕ)) : ∀ g : Grid,
    countOnes (zsClear g l) ≤ countOnes g := by
  induction l with
  | nil => intro g; exact le_refl _
  | cons p t ih =>
    intro g
    unfold zsClear
    rw [List.foldl_cons]
    refine le_trans (ih _) ?_
    exact countOnes_set_le g p.1 _ (rowCount_set0_le _ p.2)

theorem gridAt_one_bounds (g : Grid) (y x : ℕ) (h1 : gridAt g y x = 1) :
    y < g.length ∧ x < (g.getD y []).length := by
  unfold gridAt at h1
  constructor
  · by_contra hy
    have hrow : g.getD y [] = [] := List.getD_eq_default _ _ (by omega)
    rw [hrow] at h1
    simp at h1
  · by_contra hx
    rw [List.getD_eq_default _ _ (by omega)] at h1
    exact absurd h1 (by omega)

theorem countOnes_clear_lt (p : ℕ × ℕ) (t : List (ℕ × ℕ)) (g : Grid)
    (h1 : gridAt g p.1 p.2 = 1) : countOnes (zsClear g (p :: t)) < countOnes g := by
  have hb := gridAt_one_bounds g p.1 p.2 h1
  unfold zsClear
  rw [List.foldl_cons]
  refine lt_of_le_of_lt (countOnes_clear_le t _) ?_
  exact countOnes_set_lt g p.1 _ (rowCount_set0_lt _ p.2 h1) hb.1

theorem zsCollect_mem (sub2 : Bool) (g : Grid) (w h : ℕ) (p : ℕ × ℕ)
    (hp : p ∈ zsCollect sub2 g w h) : zsCond sub2 g p.1 p.2 := by
  unfold zsCollect at hp
  obtain ⟨y, _, hmem⟩ := List.mem_flatMap.mp hp
  obtain ⟨x, _, heq⟩ := List.mem_filterMap.mp hmem
  by_cases hc : 1 ≤ y ∧ y + 1 < h ∧ 1 ≤ x ∧ x + 1 < w ∧ zsCond sub2 g y x
  · rw [if_pos hc] at heq
    obtain rfl := Option.some_injective _ heq
    exact hc.2.2.2.2
  · rw [if_neg hc] at heq
    cases heq

theorem zsPass_fst (w h : ℕ) (g : Grid) :
    (zsPass w h g).1 = zsClear (zsClear g (zsCollect false g w h))
      (zsCollect true (zsClear g (zsCollect false g w h)) w h) := rfl

theorem zsPass_snd (w h : ℕ) (g : Grid) :
    (zsPass w h g).2 = (!(zsCollect false g w h).isEmpty
      || !(zsCollect true (zsClear g (zsCollect false g w h)) w h).isEmpty) := rfl

theorem zsClear_nil (g : Grid) : zsClear g ([] : List (ℕ × ℕ)) = g := rfl

theorem zsPass_decrease (w h : ℕ) (g : Grid) (hch : (zsPass w h g).2 = true) :
    countOnes (zsPass w h g).1 < countOnes g := by
  rw [zsPass_snd] at hch
  rw [zsPass_fst]
  rcases h1 : zsCollect false g w h with _ | ⟨p, t⟩
  · rw [h1] at hch
    rw [zsClear_nil] at hch ⊢
    simp only [List.isEmpty_nil, Bool.not_true, Bool.false_or, Bool.not_eq_true'] at hch
    rcases h2 : zsCollect true g w h with _ | ⟨q, t2⟩
    · rw [h2] at hch
      simp at hch
    · have hq : gridAt g q.1 q.2 = 1 :=
        (zsCollect_mem true g w h q (h2 ▸ List.mem_cons_self q t2)).1
      exact countOnes_clear_lt q t2 g hq
  · have hp : gridAt g p.1 p.2 = 1 :=
      (zsCollect_mem false g w h p (h1 ▸ List.mem_cons_self p t)).1
    exact lt_of_le_of_lt (countOnes_clear_le _ _) (countOnes_clear_lt p t g hp)

theorem zsPass_unchanged (w h : ℕ) (g : Grid) (hch : (zsPass w h g).2 = false) :
    (zsPass w h g).1 = g := by
  rw [zsPass_snd] at hch
  rw [zsPass_fst]
  rcases h1 : zsCollect false g w h with _ | ⟨p, t⟩
  · rw [h1] at hch
    rw [zsClear_nil] at hch ⊢
    simp only [List.isEmpty_nil, Bool.not_true, Bool.false_or, Bool.not_eq_false'] at hch
    rw [List.isEmpty_iff.mp hch]
    exact zsClear_nil g
  · rw [h1] at hch
    simp at hch

theorem zsIterate_shift (w h : ℕ) (g : Grid) :
    ∀ n, zsIterate w h g (n + 1) = zsIterate w h (zsPass w h g).1 n := by
  intro n
  induction n with
  | zero => rfl
  | succ n ih =>
    show (zsPass w h (zsIterate w h g (n + 1))).1 = _
    rw [ih]
    rfl

theorem zs_reaches (w h : ℕ) : ∀ (bound : ℕ) (g : Grid), countOnes g ≤ bound →
    ∃ k, k ≤ countOnes g ∧ (zsPass w h (zsIterate w h g k)).2 = false := by
  intro bound
  induction bound with
  | zero =>
    intro g hg
    cases hb : (zsPass w h g).2 with
    | false => exact ⟨0, by omega, hb⟩
    | true =>
      have := zsPass_decrease w h g hb
      omega
  | succ bound ih =>
    intro g hg
    cases hb : (zsPass w h g).2 with
    | false => exact ⟨0, by omega, hb⟩
    | true =>
      have hdec := zsPass_decrease w h g hb
      obtain ⟨k, hk, hfix⟩ := ih (zsPass w h g).1 (by omega)
      refine ⟨k + 1, by omega, ?_⟩
      rw [zsIterate_shift]
      exact hfix

theorem zsLoop_eq_iterate (w h : ℕ) :
    ∀ (n : ℕ) (g : Grid) (fuel : ℕ),
      (zsPass w h (zsIterate w h g n)).2 = false →
      (∀ m, m < n → (zsPass w h (zsIterate w h g m)).2 = true) →
      n < fuel → zsLoop w h fuel g = zsIterate w h g n := by
  intro n
  induction n with
  | zero =>
    intro g fuel h0 _ hf
    cases fuel with
    | zero => omega
    | succ f =>
      show (if (zsPass w h g).2 then zsLoop w h f (zsPass w h g).1 else (zsPass w h g).1) = g
      rw [show (zsPass w h g).2 = false from h0]
      simp only [Bool.false_eq_true, if_false]
      exact zsPass_unchanged w h g h0
  | succ n ih =>
    intro g fuel hn hmin hf
    cases fuel with
    | zero => omega
    | succ f =>
      have hch : (zsPass w h g).2 = true := hmin 0 (Nat.succ_pos n)
      show (if (zsPass w h g).2 then zsLoop w h f (zsPass w h g).1 else (zsPass w h g).1)
        = zsIterate w h g (n + 1)
      rw [hch]
      simp only [if_true]
      rw [zsIterate_shift]
      refine ih (zsPass w h g).1 f ?_ ?_ (by omega)
      · rw [← zsIterate_shift]
        exact hn
      · intro m hm
        rw [← zsIterate_shift]
        exact hmin (m + 1) (by omega)

/-- C2: Zhang-Suen thinning terminates.  For every grid there is a pass
index `n`, at most the number of foreground cells, whose full pass (both
batch-committed sub-iterations, as `zsPass` performs them) removes nothing;
every earlier pass removes something; and the while loop, run with any
sufficient fuel (in particular the provably sufficient `countOnes g + 1`
used by `zsRun`), exits exactly at that pass, returning the grid after `n`
passes. -/
theorem C2_zhang_suen_terminates (w h : ℕ) (g : Grid) :
    ∃ n, n ≤ countOnes g ∧ (zsPass w h (zsIterate w h g n)).2 = false
      ∧ (∀ m, m < n → (zsPass w h (zsIterate w h g m)).2 = true)
      ∧ (∀ fuel, n < fuel → zsLoop w h fuel g = zsIterate w h g n)
      ∧ zsRun w h g = zsIterate w h g n := by
  obtain ⟨k, hk, hfix⟩ := zs_reaches w h (countOnes g) g (le_refl _)
  have hex : ∃ n, (zsPass w h (zsIterate w h g n)).2 = false := ⟨k, hfix⟩
  refine ⟨Nat.find hex, le_trans (Nat.find_min' hex hfix) hk, Nat.find_spec hex,
    ?_, ?_, ?_⟩
  · intro m hm
    have hnot := Nat.find_min hex hm
    simpa using hnot
  · intro fuel hfuel
    refine zsLoop_eq_iterate w h (Nat.find hex) g fuel (Nat.find_spec hex) ?_ hfuel
    intro m hm
    have hnot := Nat.find_min hex hm
    simpa using hnot
  · refine zsLoop_eq_iterate w h (Nat.find hex) g _ (Nat.find_spec hex) ?_ ?_
    · intro m hm
      have hnot := Nat.find_min hex hm
      simpa using hnot
    · have := le_trans (Nat.find_min' hex hfix) hk
      omega

/-! ## Zhang-Suen never creates foreground -/

theorem set0_cell_cases (g : Grid) (y0 x0 y x : ℕ) :
    gridAt (g.set y0 ((g.getD y0 []).set x0 0)) y x = gridAt g y x
    ∨ gridAt (g.set y0 ((g.getD y0 []).set x0 0)) y x = 0 := by
  unfold gridAt
  by_cases hy : y = y0
  · subst hy
    by_cases hg : y < g.length
    · rw [getD_set_self _ _ _ _ hg]
      by_cases hx : x = x0
      · subst hx
        by_cases hr : x < (g.getD y []).length
        · right
          rw [getD_set_self _ _ _ _ hr]
        · right
          rw [List.getD_eq_default _ _ (by simp only [List.length_set]; omega)]
      · left
        rw [getD_set_ne _ _ _ _ _ (fun hh => hx hh.symm)]
    · left
      have h1 : (g.set y ((g.getD y []).set x0 0)).getD y [] = [] :=
        List.getD_eq_default _ _ (by simp only [List.length_set]; omega)
      have h2 : g.getD y [] = [] := List.getD_eq_default _ _ (by omega)
      rw [h1, h2]
  · left
    rw [getD_set_ne _ _ _ _ _ (fun hh => hy hh.symm)]

theorem zsClear_cons (g : Grid) (p : ℕ × ℕ) (t : List (ℕ × ℕ)) :
    zsClear g (p :: t) = zsClear (g.set p.1 ((g.getD p.1 []).set p.2 0)) t := rfl

theorem zsClear_cell_cases (y x : ℕ) : ∀ (l : List (ℕ × ℕ)) (g : Grid),
    gridAt (zsClear g l) y x = gridAt g y x ∨ gridAt (zsClear g l) y x = 0 := by
  intro l
  induction l with
  | nil => intro g; left; rfl
  | cons p t ih =>
    intro g
    rw [zsClear_cons]
    rcases ih (g.set p.1 ((g.getD p.1 []).set p.2 0)) with hcase | hcase
    · rcases set0_cell_cases g p.1 p.2 y x with hc2 | hc2
      · left
        rw [← hc2]
        exact hcase
      · right
        rw [hcase]
        exact hc2
    · right
      exact hcase

theorem zsPass_cell_cases (w h : ℕ) (g : Grid) (y x : ℕ) :
    gridAt (zsPass w h g).1 y x = gridAt g y x ∨ gridAt (zsPass w h g).1 y x = 0 := by
  rw [zsPass_fst]
  rcases zsClear_cell_cases y x (zsCollect true (zsClear g (zsCollect false g w h)) w h)
      (zsClear g (zsCollect false g w h)) with hc | hc
  · rw [hc]
    exact zsClear_cell_cases y x _ g
  · right
    exact hc

theorem zsIterate_cell_cases (w h : ℕ) (g : Grid) (y x : ℕ) : ∀ n,
    gridAt (zsIterate w h g n) y x = gridAt g y x
    ∨ gridAt (zsIterate w h g n) y x = 0 := by
  intro n
  induction n with
  | zero => left; rfl
  | succ n ih =>
    rcases zsPass_cell_cases w h (zsIterate w h g n) y x with hc | hc
    · rcases ih with h2 | h2
      · left
        exact hc.trans h2
      · right
        exact hc.trans h2
    · right
      exact hc

theorem zsLoop_cell_cases (w h y x : ℕ) : ∀ (fuel : ℕ) (g : Grid),
    gridAt (zsLoop w h fuel g) y x = gridAt g y x
    ∨ gridAt (zsLoop w h fuel g) y x = 0 := by
  intro fuel
  induction fuel with
  | zero => intro g; left; rfl
  | succ f ih =>
    intro g
    have heq : zsLoop w h (f + 1) g =
        if (zsPass w h g).2 then zsLoop w h f (zsPass w h g).1 else (zsPass w h g).1 := rfl
    rw [heq]
    by_cases hb : (zsPass w h g).2
    · rw [if_pos hb]
      rcases ih (zsPass w h g).1 with hc | hc
      · rcases zsPass_cell_cases w h g y x with h2 | h2
        · left
          exact hc.trans h2
        · right
          exact hc.trans h2
      · right
        exact hc
    · rw [if_neg hb]
      exact zsPass_cell_cases w h g y x

theorem length_converterParaGrayscale : ∀ l : Buf,
    (converterParaGrayscale l).length = l.length
  | [] => rfl
  | [_] => rfl
  | [_, _] => rfl
  | [_, _, _] => rfl
  | _ :: _ :: _ :: _ :: rest => by
      simp only [converterParaGrayscale, List.length_cons]
      rw [length_converterParaGrayscale rest]

theorem length_zsBinarizeData : ∀ l : Buf, (zsBinarizeData l).length = l.length
  | [] => rfl
  | [_] => rfl
  | [_, _] => rfl
  | [_, _, _] => rfl
  | _ :: _ :: _ :: _ :: rest => by
      simp only [zsBinarizeData, List.length_cons]
      rw [length_zsBinarizeData rest]

theorem zsBinarizeData_getD : (l : Buf) → (i : ℕ) → i % 4 = 0 → i < l.length →
    (zsBinarizeData l).getD i 0 = (if l.getD i 0 < 128 then 1 else 0) * 255
  | _ :: _ :: _ :: _ :: _, 0, _, _ => by simp [zsBinarizeData]
  | r :: g :: b :: a :: rest, i + 4, h4, hlen => by
      have h4' : i % 4 = 0 := by omega
      have hlen' : i < rest.length := by
        simp only [List.length_cons] at hlen
        omega
      show (zsBinarizeData rest).getD i 0 = _
      rw [zsBinarizeData_getD rest i h4' hlen']
      rfl
  | [_, _, _], 0, _, _ => by simp [zsBinarizeData]
  | [_, _], 0, _, _ => by simp [zsBinarizeData]
  | [_], 0, _, _ => by simp [zsBinarizeData]
  | [], _, _, hlen => by simp at hlen
  | _, 1, h4, _ => absurd h4 (by decide)
  | _, 2, h4, _ => absurd h4 (by decide)
  | _, 3, h4, _ => absurd h4 (by decide)
  | [_, _, _], _ + 4, _, hlen => by
      simp only [List.length_cons, List.length_nil] at hlen
      omega
  | [_, _], _ + 4, _, hlen => by
      simp only [List.length_cons, List.length_nil] at hlen
      omega
  | [_], _ + 4, _, hlen => by
      simp only [List.length_cons, List.length_nil] at hlen
      omega

theorem gridAt_zsGrid (data : Buf) (w h y x : ℕ) (hy : y < h) (hx : x < w) :
    gridAt (zsGrid data w h) y x =
      if data.getD ((y * w + x) * 4) 0 = 0 then 0 else 1 := by
  unfold gridAt zsGrid
  rw [getD_map_range h _ y [], if_pos hy, getD_map_range w _ x 0, if_pos hx]

theorem zsWriteback_getD (data : Buf) (w h : ℕ) (g : Grid) (i : ℕ)
    (hi : i < data.length) :
    (zsWriteback data w h g).getD i 0 =
      if i / 4 < w * h then
        (if i % 4 = 3 then data.getD i 0
         else if gridAt g (i / 4 / w) (i / 4 % w) ≠ 0 then 0 else 255)
      else data.getD i 0 := by
  unfold zsWriteback
  rw [getD_map_range data.length _ i 0, if_pos hi]

/-- C8: the thinning loop never creates foreground.  After any number of
passes the set of 1-cells is contained in the initial grid's (cells are
only ever cleared), and every black pixel of the handler's output was dark
(intensity `< 128`) in the grayscale input. -/
theorem C8_thinning_never_creates (data : Buf) (w h n y x : ℕ)
    (hlen : data.length = 4 * w * h) (hy : y < h) (hx : x < w) :
    (gridAt (zsIterate w h (zsGrid (zsBinarizeData (converterParaGrayscale data)) w h) n)
        y x = 1 →
      gridAt (zsGrid (zsBinarizeData (converterParaGrayscale data)) w h) y x = 1)
    ∧ ((handleZhangSuenData data w h).getD ((y * w + x) * 4) 0 = 0 →
      (converterParaGrayscale data).getD ((y * w + x) * 4) 0 < 128) := by
  have hgraylen : (converterParaGrayscale data).length = 4 * w * h := by
    rw [length_converterParaGrayscale, hlen]
  have hbinlen : (zsBinarizeData (converterParaGrayscale data)).length = 4 * w * h := by
    rw [length_zsBinarizeData, hgraylen]
  have hplt : y * w + x < w * h := encode_lt w h y x hy hx
  constructor
  · intro h1
    rcases zsIterate_cell_cases w h
        (zsGrid (zsBinarizeData (converterParaGrayscale data)) w h) y x n with hc | hc
    · rw [← hc]
      exact h1
    · rw [hc] at h1
      omega
  · intro h0
    unfold handleZhangSuenData at h0
    dsimp only at h0
    rw [zsWriteback_getD _ w h _ _ (by rw [hbinlen, Nat.mul_assoc]; omega)] at h0
    have hp : ((y * w + x) * 4) / 4 = y * w + x := by omega
    rw [hp, if_pos hplt, encode_div w y x hx, encode_mod w y x hx,
      if_neg (by omega)] at h0
    by_cases hrun : gridAt (zsRun w h
        (zsGrid (zsBinarizeData (converterParaGrayscale data)) w h)) y x ≠ 0
    · have hgrid : gridAt (zsGrid (zsBinarizeData (converterParaGrayscale data)) w h)
          y x ≠ 0 := by
        unfold zsRun at hrun
        rcases zsLoop_cell_cases w h y x
            (countOnes (zsGrid (zsBinarizeData (converterParaGrayscale data)) w h) + 1)
            (zsGrid (zsBinarizeData (converterParaGrayscale data)) w h) with hc | hc
        · rw [hc] at hrun
          exact hrun
        · exact absurd hc hrun
      rw [gridAt_zsGrid _ w h y x hy hx] at hgrid
      by_cases hb : (zsBinarizeData (converterParaGrayscale data)).getD
          ((y * w + x) * 4) 0 = 0
      · rw [if_pos hb] at hgrid
        omega
      · rw [zsBinarizeData_getD (converterParaGrayscale data) ((y * w + x) * 4)
          (by omega) (by rw [hgraylen, Nat.mul_assoc]; omega)] at hb
        by_cases hlt : (converterParaGrayscale data).getD ((y * w + x) * 4) 0 < 128
        · exact hlt
        · rw [if_neg hlt] at hb
          omega
    · rw [if_neg hrun] at h0
      omega

theorem bufDark_eq : bufDark =
    [0, 0, 0, 255, 0, 0, 0, 255, 0, 0, 0, 255, 0, 0, 0, 255, 0, 0, 0, 255,
     0, 0, 0, 255, 0, 0, 0, 255, 0, 0, 0, 255, 0, 0, 0, 255] := by decide

theorem gray_zero : clampU8 (lum 0 0 0) = 0 := by
  have h0 : lum 0 0 0 = ((0 : ℕ) : ℚ) := by norm_num [lum]
  rw [h0, clampU8_natCast 0 (by omega)]

theorem converter_bufDark : converterParaGrayscale bufDark = bufDark := by
  rw [bufDark_eq]
  simp only [converterParaGrayscale, gray_zero]

theorem handleZhangSuenData_bufDark : handleZhangSuenData bufDark 3 3 =
    zsWriteback (zsBinarizeData bufDark) 3 3
      (zsRun 3 3 (zsGrid (zsBinarizeData bufDark) 3 3)) := by
  unfold handleZhangSuenData
  rw [converter_bufDark]

/-- Witness for C8 on the fully black 3×3 image: the interior cell survives
two passes and the output pixel is black with dark grayscale input. -/
theorem C8_thinning_never_creates_witness :
    gridAt (zsGrid (zsBinarizeData (converterParaGrayscale bufDark)) 3 3) 1 1 = 1
    ∧ (converterParaGrayscale bufDark).getD ((1 * 3 + 1) * 4) 0 < 128 :=
  ⟨(C8_thinning_never_creates bufDark 3 3 2 1 1 (by decide) (by decide) (by decide)).1
      (by rw [converter_bufDark]; decide),
   (C8_thinning_never_creates bufDark 3 3 2 1 1 (by decide) (by decide) (by decide)).2
      (by rw [handleZhangSuenData_bufDark]; decide)⟩

/-! ## Labeler well-formedness: basic lemmas -/

/-! ## Labeler well-formedness: basic lemmas -/

theorem getD_mem_of_lt {α} (l : List α) (n : ℕ) (d : α) (h : n < l.length) :
    l.getD n d ∈ l := by
  rw [List.getD_eq_getElem _ _ h]
  exact List.getElem_mem h

theorem LShape_labelSet (L : LabelGrid) (w h y x lab : ℕ) (hs : LShape L w h) :
    LShape (labelSet L y x lab) w h := by
  obtain ⟨hlen, hrows⟩ := hs
  by_cases hy : y < L.length
  · constructor
    · rw [labelSet, List.length_set, hlen]
    · intro row hrow
      rcases List.mem_or_eq_of_mem_set hrow with hmem | heq
      · exact hrows row hmem
      · subst heq
        rw [List.length_set]
        exact hrows _ (getD_mem_of_lt L y [] hy)
  · have hset : labelSet L y x lab = L := by
      unfold labelSet
      exact List.set_eq_of_length_le (by omega)
    rw [hset]
    exact ⟨hlen, hrows⟩

theorem gridAt_labelSet (L : LabelGrid) (y x lab y0 x0 : ℕ)
    (hy : y < L.length) (hx : x < (L.getD y []).length) :
    gridAt (labelSet L y x lab) y0 x0 =
      if y0 = y ∧ x0 = x then lab else gridAt L y0 x0 := by
  unfold gridAt labelSet
  by_cases hy0 : y0 = y
  · subst hy0
    rw [getD_set_self _ _ _ _ hy]
    by_cases hx0 : x0 = x
    · subst hx0
      rw [if_pos ⟨rfl, rfl⟩, getD_set_self _ _ _ _ hx]
    · rw [if_neg (by tauto), getD_set_ne _ _ _ _ _ (fun hh => hx0 hh.symm)]
  · rw [if_neg (by tauto), getD_set_ne _ _ _ _ _ (fun hh => hy0 hh.symm)]

theorem rowZeros_set_le (lab : ℕ) (hlab : lab ≠ 0) (row : List ℕ) : ∀ x,
    ((row.set x lab).countP (fun v => v = 0)) ≤ row.countP (fun v => v = 0) := by
  induction row with
  | nil => intro x; simp
  | cons a t ih =>
    intro x
    cases x with
    | zero =>
      simp only [List.set_cons_zero, List.countP_cons, decide_eq_true_eq]
      have : ¬(lab = 0) := hlab
      simp only [this, if_false]
      omega
    | succ x =>
      simp only [List.set_cons_succ, List.countP_cons]
      have := ih x
      omega

theorem rowZeros_set_lt (lab : ℕ) (hlab : lab ≠ 0) (row : List ℕ) : ∀ x,
    row.getD x 0 = 0 → x < row.length →
    ((row.set x lab).countP (fun v => v = 0)) < row.countP (fun v => v = 0) := by
  induction row with
  | nil => intro x _ hx; simp at hx
  | cons a t ih =>
    intro x hx0 hxl
    cases x with
    | zero =>
      simp only [List.getD_cons_zero] at hx0
      simp only [List.set_cons_zero, List.countP_cons, hx0, decide_eq_true_eq]
      have : ¬(lab = 0) := hlab
      simp only [this, if_false]
      norm_num
    | succ x =>
      simp only [List.getD_cons_succ] at hx0
      simp only [List.set_cons_succ, List.countP_cons]
      have := ih x hx0 (by simpa using Nat.lt_of_succ_lt_succ hxl)
      omega

theorem countZeros_labelSet_le (lab : ℕ) (hlab : lab ≠ 0) : ∀ (L : LabelGrid) (y x : ℕ),
    countZeros (labelSet L y x lab) ≤ countZeros L := by
  intro L
  induction L with
  | nil => intro y x; simp [labelSet, countZeros]
  | cons a t ih =>
    intro y x
    cases y with
    | zero =>
      simp only [labelSet, List.getD_cons_zero, List.set_cons_zero, countZeros,
        List.map_cons, List.sum_cons]
      have := rowZeros_set_le lab hlab a x
      omega
    | succ y =>
      simp only [labelSet, List.getD_cons_succ, List.set_cons_succ, countZeros,
        List.map_cons, List.sum_cons]
      have := ih y x
      simp only [labelSet, countZeros] at this
      omega

theorem countZeros_labelSet_lt (lab : ℕ) (hlab : lab ≠ 0) : ∀ (L : LabelGrid) (y x : ℕ),
    gridAt L y x = 0 → y < L.length → x < (L.getD y []).length →
    countZeros (labelSet L y x lab) < countZeros L := by
  intro L
  induction L with
  | nil => intro y x _ hy; simp at hy
  | cons a t ih =>
    intro y x h0 hy hx
    cases y with
    | zero =>
      simp only [gridAt, List.getD_cons_zero] at h0
      simp only [List.getD_cons_zero] at hx
      simp only [labelSet, List.getD_cons_zero, List.set_cons_zero, countZeros,
        List.map_cons, List.sum_cons]
      have := rowZeros_set_lt lab hlab a x h0 hx
      omega
    | succ y =>
      simp only [gridAt, List.getD_cons_succ] at h0
      simp only [List.getD_cons_succ] at hx
      simp only [labelSet, List.getD_cons_succ, List.set_cons_succ, countZeros,
        List.map_cons, List.sum_cons]
      have := ih y x h0 (by simpa using Nat.lt_of_succ_lt_succ hy) hx
      simp only [labelSet, countZeros] at this
      omega

theorem foldl_push_length {α β : Type} (f : β → α) (l : List β) :
    ∀ s : List α, (l.foldl (fun s i => f i :: s) s).length = s.length + l.length := by
  induction l with
  | nil => intro s; simp
  | cons b t ih =>
    intro s
    rw [List.foldl_cons, ih]
    simp only [List.length_cons]
    omega

theorem foldl_push_mem_of_mem {α β : Type} (f : β → α) (l : List β) :
    ∀ (s : List α) (e : α), e ∈ s → e ∈ l.foldl (fun s i => f i :: s) s := by
  induction l with
  | nil => intro s e he; exact he
  | cons b t ih =>
    intro s e he
    rw [List.foldl_cons]
    exact ih _ e (List.mem_cons_of_mem _ he)

theorem foldl_push_mem_pushed {α β : Type} (f : β → α) (l : List β) :
    ∀ (s : List α) (b : β), b ∈ l → f b ∈ l.foldl (fun s i => f i :: s) s := by
  induction l with
  | nil => intro s b hb; cases hb
  | cons c t ih =>
    intro s b hb
    rw [List.foldl_cons]
    rcases List.mem_cons.mp hb with rfl | hmem
    · exact foldl_push_mem_of_mem f t _ _ (List.mem_cons_self _ _)
    · exact ih _ b hmem

theorem length_pushNeighbors (x y : ℤ) (s : List (ℤ × ℤ)) :
    (pushNeighbors x y s).length = s.length + 8 := by
  unfold pushNeighbors
  rw [foldl_push_length]
  rfl

theorem mem_pushNeighbors_of_mem (x y : ℤ) (s : List (ℤ × ℤ)) (e : ℤ × ℤ)
    (he : e ∈ s) : e ∈ pushNeighbors x y s :=
  foldl_push_mem_of_mem _ _ s e he

theorem mem_pushNeighbors_pushed (x y : ℤ) (s : List (ℤ × ℤ)) (i : ℕ) (hi : i < 8) :
    (x + rotDX.getD i 0, y + rotDY.getD i 0) ∈ pushNeighbors x y s :=
  foldl_push_mem_pushed _ _ s i (List.mem_range.mpr hi)

theorem rowCount_le_length (p : ℕ → Bool) (row : List ℕ) :
    row.countP p ≤ row.length := List.countP_le_length p

theorem countZeros_le (L : LabelGrid) (w h : ℕ) (hs : LShape L w h) :
    countZeros L ≤ h * w := by
  obtain ⟨hlen, hrows⟩ := hs
  unfold countZeros
  calc (L.map (fun row => row.countP (fun v => v = 0))).sum
      ≤ (L.map (fun _ => w)).sum := by
        apply List.sum_le_sum
        intro a ha
        rw [← hrows a ha]
        exact List.countP_le_length _
    _ = L.length * w := by
        rw [List.map_const' L w]
        simp [List.sum_replicate, smul_eq_mul]
    _ = h * w := by rw [hlen]

/-- Every 8-adjacent cell is reached by one of the labeler's eight
neighbour offsets. -/
theorem adj8_offset (yc xc y2 x2 : ℕ) (hadj : adj8 yc xc y2 x2) :
    ∃ i, i < 8 ∧ ((xc : ℤ) + rotDX.getD i 0, (yc : ℤ) + rotDY.getD i 0)
      = ((x2 : ℤ), (y2 : ℤ)) := by
  obtain ⟨h1, h2, h3, h4, h5⟩ := hadj
  have hy : y2 + 1 = yc ∨ y2 = yc ∨ y2 = yc + 1 := by omega
  have hx : x2 + 1 = xc ∨ x2 = xc ∨ x2 = xc + 1 := by omega
  rcases hy with hy | hy | hy <;> rcases hx with hx | hx | hx
  · refine ⟨0, by omega, ?_⟩
    simp only [rotDX, rotDY, List.getD_cons_zero, List.getD_cons_succ, Prod.mk.injEq]
    constructor <;> omega
  · refine ⟨3, by omega, ?_⟩
    simp only [rotDX, rotDY, List.getD_cons_zero, List.getD_cons_succ, Prod.mk.injEq]
    constructor <;> omega
  · refine ⟨5, by omega, ?_⟩
    simp only [rotDX, rotDY, List.getD_cons_zero, List.getD_cons_succ, Prod.mk.injEq]
    constructor <;> omega
  · refine ⟨1, by omega, ?_⟩
    simp only [rotDX, rotDY, List.getD_cons_zero, List.getD_cons_succ, Prod.mk.injEq]
    constructor <;> omega
  · exact absurd (And.intro (by omega) (by omega)) h5
  · refine ⟨6, by omega, ?_⟩
    simp only [rotDX, rotDY, List.getD_cons_zero, List.getD_cons_succ, Prod.mk.injEq]
    constructor <;> omega
  · refine ⟨2, by omega, ?_⟩
    simp only [rotDX, rotDY, List.getD_cons_zero, List.getD_cons_succ, Prod.mk.injEq]
    constructor <;> omega
  · refine ⟨4, by omega, ?_⟩
    simp only [rotDX, rotDY, List.getD_cons_zero, List.getD_cons_succ, Prod.mk.injEq]
    constructor <;> omega
  · refine ⟨7, by omega, ?_⟩
    simp only [rotDX, rotDY, List.getD_cons_zero, List.getD_cons_succ, Prod.mk.injEq]
    constructor <;> omega

theorem floodFill_cons (data : Buf) (w h lab fuel : ℕ) (x y : ℤ)
    (rest : List (ℤ × ℤ)) (L : LabelGrid) :
    floodFill data w h lab (fuel + 1) ((x, y) :: rest) L =
      if x < 0 ∨ (w : ℤ) ≤ x ∨ y < 0 ∨ (h : ℤ) ≤ y
          ∨ (L.getD y.toNat []).getD x.toNat 0 ≠ 0 then
        floodFill data w h lab fuel rest L
      else if data.getD ((y.toNat * w + x.toNat) * 4) 255 ≠ 0 then
        floodFill data w h lab fuel rest L
      else
        floodFill data w h lab fuel (pushNeighbors x y rest)
          (labelSet L y.toNat x.toNat lab) := rfl

theorem adj8_symm (y x y2 x2 : ℕ) (h : adj8 y x y2 x2) : adj8 y2 x2 y x := by
  obtain ⟨h1, h2, h3, h4, h5⟩ := h
  exact ⟨by omega, by omega, by omega, by omega, by omega⟩

/-- The master flood-fill lemma.  With fuel at least the measure
`stack length + 9 * (number of unlabelled cells)`, the loop
(1) preserves the grid shape,
(2) changes cells only from 0 to `lab`, and only at in-bounds foreground cells,
(3) leaves every in-bounds foreground stack entry labelled, and
(4) leaves every in-bounds foreground neighbour of every newly labelled cell
    labelled. -/
theorem floodFill_spec (data : Buf) (w h lab : ℕ) (hlab : 1 ≤ lab) :
    ∀ (fuel : ℕ) (s : List (ℤ × ℤ)) (L : LabelGrid), LShape L w h →
      s.length + 9 * countZeros L ≤ fuel →
      (LShape (floodFill data w h lab fuel s L) w h)
      ∧ (∀ y x : ℕ, gridAt (floodFill data w h lab fuel s L) y x = gridAt L y x
          ∨ (gridAt L y x = 0 ∧ gridAt (floodFill data w h lab fuel s L) y x = lab
             ∧ y < h ∧ x < w ∧ rotBlack data w y x))
      ∧ (∀ e : ℤ × ℤ, e ∈ s → 0 ≤ e.1 → e.1 < (w : ℤ) → 0 ≤ e.2 → e.2 < (h : ℤ) →
          rotBlack data w e.2.toNat e.1.toNat →
          gridAt (floodFill data w h lab fuel s L) e.2.toNat e.1.toNat ≠ 0)
      ∧ (∀ y x : ℕ, gridAt L y x = 0 →
          gridAt (floodFill data w h lab fuel s L) y x = lab →
          ∀ y2 x2 : ℕ, y2 < h → x2 < w → adj8 y x y2 x2 → rotBlack data w y2 x2 →
          gridAt (floodFill data w h lab fuel s L) y2 x2 ≠ 0) := by
  intro fuel
  induction fuel with
  | zero =>
    intro s L hs hm
    have hsnil : s = [] := List.eq_nil_of_length_eq_zero (by omega)
    subst hsnil
    have hL : floodFill data w h lab 0 [] L = L := rfl
    rw [hL]
    refine ⟨hs, fun y x => Or.inl rfl, ?_, ?_⟩
    · intro e he
      cases he
    · intro y x h0 hlabv
      rw [h0] at hlabv
      omega
  | succ fuel ih =>
    intro s L hs hm
    rcases s with _ | ⟨⟨x, y⟩, rest⟩
    · have hL : floodFill data w h lab (fuel + 1) [] L = L := rfl
      rw [hL]
      refine ⟨hs, fun y x => Or.inl rfl, ?_, ?_⟩
      · intro e he
        cases he
      · intro y x h0 hlabv
        rw [h0] at hlabv
        omega
    · rw [floodFill_cons]
      simp only [List.length_cons] at hm
      by_cases hskip : x < 0 ∨ (w : ℤ) ≤ x ∨ y < 0 ∨ (h : ℤ) ≤ y
          ∨ (L.getD y.toNat []).getD x.toNat 0 ≠ 0
      · rw [if_pos hskip]
        obtain ⟨hs', hA, hB, hC⟩ := ih rest L hs (by omega)
        refine ⟨hs', hA, ?_, hC⟩
        intro e he he1 he2 he3 he4 heb
        rcases List.mem_cons.mp he with heq | hmem
        · subst heq
          have he1' : 0 ≤ x := he1
          have he2' : x < (w : ℤ) := he2
          have he3' : 0 ≤ y := he3
          have he4' : y < (h : ℤ) := he4
          show gridAt (floodFill data w h lab fuel rest L) y.toNat x.toNat ≠ 0
          have hlab0 : gridAt L y.toNat x.toNat ≠ 0 := by
            rcases hskip with hc | hc | hc | hc | hc
            · omega
            · omega
            · omega
            · omega
            · exact hc
          rcases hA y.toNat x.toNat with hc | hc
          · rw [hc]
            exact hlab0
          · rw [hc.2.1]
            omega
        · exact hB e hmem he1 he2 he3 he4 heb
      · rw [if_neg hskip]
        push_neg at hskip
        obtain ⟨hx0, hxw, hy0, hyh, hl0⟩ := hskip
        by_cases hwhite : data.getD ((y.toNat * w + x.toNat) * 4) 255 ≠ 0
        · rw [if_pos hwhite]
          obtain ⟨hs', hA, hB, hC⟩ := ih rest L hs (by omega)
          refine ⟨hs', hA, ?_, hC⟩
          intro e he he1 he2 he3 he4 heb
          rcases List.mem_cons.mp he with heq | hmem
          · subst heq
            have heb' : rotBlack data w y.toNat x.toNat := heb
            exact absurd heb' hwhite
          · exact hB e hmem he1 he2 he3 he4 heb
        · rw [if_neg hwhite]
          have hblack : rotBlack data w y.toNat x.toNat := by
            unfold rotBlack
            omega
          have hyb : y.toNat < h := by omega
          have hxb : x.toNat < w := by omega
          have hyl : y.toNat < L.length := by
            rw [hs.1]
            exact hyb
          have hxl : x.toNat < (L.getD y.toNat []).length := by
            rw [hs.2 _ (getD_mem_of_lt L y.toNat [] hyl)]
            omega
          have hg0 : gridAt L y.toNat x.toNat = 0 := hl0
          have hs1 : LShape (labelSet L y.toNat x.toNat lab) w h :=
            LShape_labelSet L w h _ _ lab hs
          have hz1 : countZeros (labelSet L y.toNat x.toNat lab) < countZeros L :=
            countZeros_labelSet_lt lab (by omega) L _ _ hg0 hyl hxl
          have hm1 : (pushNeighbors x y rest).length
              + 9 * countZeros (labelSet L y.toNat x.toNat lab) ≤ fuel := by
            rw [length_pushNeighbors]
            omega
          obtain ⟨hs', hA, hB, hC⟩ := ih (pushNeighbors x y rest)
            (labelSet L y.toNat x.toNat lab) hs1 hm1
          have hLS : ∀ y0 x0 : ℕ, gridAt (labelSet L y.toNat x.toNat lab) y0 x0 =
              if y0 = y.toNat ∧ x0 = x.toNat then lab else gridAt L y0 x0 :=
            fun y0 x0 => gridAt_labelSet L y.toNat x.toNat lab y0 x0 hyl hxl
          refine ⟨hs', ?_, ?_, ?_⟩
          · intro y0 x0
            rcases hA y0 x0 with hc | hc
            · by_cases hcell : y0 = y.toNat ∧ x0 = x.toNat
              · right
                obtain ⟨rfl, rfl⟩ := hcell
                refine ⟨hg0, ?_, hyb, hxb, hblack⟩
                rw [hc, hLS, if_pos ⟨rfl, rfl⟩]
              · left
                rw [hc, hLS y0 x0, if_neg hcell]
            · by_cases hcell : y0 = y.toNat ∧ x0 = x.toNat
              · exfalso
                have h1 := hc.1
                rw [hLS y0 x0, if_pos hcell] at h1
                omega
              · right
                have h00 : gridAt L y0 x0 = 0 := by
                  have h1 := hc.1
                  rw [hLS y0 x0, if_neg hcell] at h1
                  exact h1
                exact ⟨h00, hc.2.1, hc.2.2⟩
          · intro e he he1 he2 he3 he4 heb
            rcases List.mem_cons.mp he with heq | hmem
            · subst heq
              show gridAt (floodFill data w h lab fuel (pushNeighbors x y rest)
                (labelSet L y.toNat x.toNat lab)) y.toNat x.toNat ≠ 0
              have h1 : gridAt (labelSet L y.toNat x.toNat lab) y.toNat x.toNat
                  = lab := by
                rw [hLS, if_pos ⟨rfl, rfl⟩]
              rcases hA y.toNat x.toNat with hc | hc
              · rw [hc, h1]
                omega
              · rw [hc.2.1]
                omega
            · exact hB e (mem_pushNeighbors_of_mem x y rest e hmem) he1 he2 he3 he4 heb
          · intro y0 x0 h0 hlabv y2 x2 hy2 hx2 hadj heb
            by_cases hcell : y0 = y.toNat ∧ x0 = x.toNat
            · obtain ⟨rfl, rfl⟩ := hcell
              obtain ⟨i, hi, hie⟩ := adj8_offset y.toNat x.toNat y2 x2 hadj
              have hxx : (x.toNat : ℤ) = x := Int.toNat_of_nonneg hx0
              have hyy : (y.toNat : ℤ) = y := Int.toNat_of_nonneg hy0
              rw [hxx, hyy] at hie
              have hmem : ((x2 : ℤ), (y2 : ℤ)) ∈ pushNeighbors x y rest := by
                rw [← hie]
                exact mem_pushNeighbors_pushed x y rest i hi
              have hb2 := hB ((x2 : ℤ), (y2 : ℤ)) hmem (by omega)
                (by show (x2 : ℤ) < (w : ℤ); exact_mod_cast hx2)
                (by omega)
                (by show (y2 : ℤ) < (h : ℤ); exact_mod_cast hy2)
              simp only [Int.toNat_natCast] at hb2
              exact hb2 heb
            · have h0' : gridAt (labelSet L y.toNat x.toNat lab) y0 x0 = 0 := by
                rw [hLS, if_neg hcell]
                exact h0
              exact hC y0 x0 h0' hlabv y2 x2 hy2 hx2 hadj heb

/-- Generic fold invariant: a property preserved by every step of a left
fold holds of the result. -/
theorem foldl_inv {α β : Type} (f : β → α → β) (P : β → Prop) :
    ∀ (l : List α) (b : β), P b → (∀ b2 a, a ∈ l → P b2 → P (f b2 a)) →
      P (l.foldl f b) := by
  intro l
  induction l with
  | nil =>
    intro b hb _
    exact hb
  | cons a t ih =>
    intro b hb hf
    rw [List.foldl_cons]
    exact ih (f b a) (hf b a (List.mem_cons_self a t) hb)
      (fun b2 a2 ha2 => hf b2 a2 (List.mem_cons_of_mem a ha2))

/-- Generic pointwise fold lemma: if processing an element establishes a
per-element property and any later step preserves it (under a carried
invariant), the property holds of every processed element at the end. -/
theorem foldl_pointwise {α β : Type} (f : β → α → β) (P : β → Prop) (R : α → β → Prop) :
    ∀ (l : List α) (b : β), P b →
      (∀ b2 a, a ∈ l → P b2 → P (f b2 a)) →
      (∀ b2 a, a ∈ l → P b2 → R a (f b2 a)) →
      (∀ b2 a a2, a2 ∈ l → P b2 → R a b2 → R a (f b2 a2)) →
      ∀ a ∈ l, R a (l.foldl f b) := by
  intro l
  induction l with
  | nil =>
    intro b _ _ _ _ a ha
    cases ha
  | cons a0 t ih =>
    intro b hb hP hstep hmono a ha
    rw [List.foldl_cons]
    rcases List.mem_cons.mp ha with rfl | hat
    · have h1 : R a (f b a) := hstep b a (List.mem_cons_self a t) hb
      have h2 : P (f b a) := hP b a (List.mem_cons_self a t) hb
      have h3 := foldl_inv f (fun st => P st ∧ R a st) t (f b a) ⟨h2, h1⟩
        (fun b2 a2 ha2 hpr => ⟨hP b2 a2 (List.mem_cons_of_mem a ha2) hpr.1,
          hmono b2 a a2 (List.mem_cons_of_mem a ha2) hpr.1 hpr.2⟩)
      exact h3.2
    · exact ih (f b a0) (hP b a0 (List.mem_cons_self a0 t) hb)
        (fun b2 a2 ha2 => hP b2 a2 (List.mem_cons_of_mem a0 ha2))
        (fun b2 a2 ha2 => hstep b2 a2 (List.mem_cons_of_mem a0 ha2))
        (fun b2 a2 a3 ha3 => hmono b2 a2 a3 (List.mem_cons_of_mem a0 ha3))
        a hat

/-- `getD` on a replicated list. -/
theorem getD_replicate {α : Type} (a d : α) :
    ∀ (n i : ℕ), (List.replicate n a).getD i d = if i < n then a else d := by
  intro n
  induction n with
  | zero =>
    intro i
    simp [List.replicate]
  | succ m ih =>
    intro i
    cases i with
    | zero => simp [List.replicate_succ]
    | succ j =>
      rw [List.replicate_succ, List.getD_cons_succ, ih j]
      by_cases hj : j < m
      · rw [if_pos hj, if_pos (by omega)]
      · rw [if_neg hj, if_neg (by omega)]

/-- The initial label grid is identically zero. -/
theorem gridAt_initLabels (w h y x : ℕ) : gridAt (initLabels w h) y x = 0 := by
  unfold gridAt initLabels
  rw [getD_replicate]
  by_cases hy : y < h
  · rw [if_pos hy, getD_replicate]
    by_cases hx : x < w
    · rw [if_pos hx]
    · rw [if_neg hx]
  · rw [if_neg hy]
    simp [List.getD]

/-- One scan cell preserves the scan invariant: a fired flood fill labels
only in-bounds foreground cells with the fresh label, the seed gets
labelled (so the fresh label occurs), and newly labelled cells agree with
all their labelled in-bounds foreground neighbours. -/
theorem rotCell_inv (data : Buf) (w h y x : ℕ) (hy : y < h) (hx : x < w)
    (st : LabelGrid × ℕ) (hinv : ScanInv data w h st) :
    ScanInv data w h (rotCell data w h y st x) := by
  unfold ScanInv at hinv ⊢
  obtain ⟨hshape, hc1, hP, hO, hCl⟩ := hinv
  unfold rotCell
  by_cases hg : data.getD ((y * w + x) * 4) 255 = 0 ∧ (st.1.getD y []).getD x 0 = 0
  · rw [if_pos hg]
    have hbl : rotBlack data w y x := hg.1
    have hseed0 : gridAt st.1 y x = 0 := hg.2
    have hm : ([((x : ℤ), (y : ℤ))] : List (ℤ × ℤ)).length
        + 9 * countZeros st.1 ≤ floodFillFuel w h := by
      have hcz := countZeros_le st.1 w h hshape
      simp only [List.length_singleton]
      unfold floodFillFuel
      have h9 : 9 * w * h = 9 * (h * w) := by ring
      rw [h9]
      omega
    obtain ⟨hS, hA, hB, hC⟩ := floodFill_spec data w h st.2 hc1
      (floodFillFuel w h) [((x : ℤ), (y : ℤ))] st.1 hshape hm
    dsimp only
    refine ⟨hS, by omega, ?_, ?_, ?_⟩
    · intro y0 x0 hne
      rcases hA y0 x0 with hcase | hcase
      · rw [hcase] at hne ⊢
        obtain ⟨h1, h2, h3, h4⟩ := hP y0 x0 hne
        exact ⟨h1, h2, h3, by omega⟩
      · obtain ⟨_, hval, hyb, hxb, hbl2⟩ := hcase
        rw [hval]
        exact ⟨hyb, hxb, hbl2, by omega⟩
    · intro k hk1 hk2
      by_cases hk : k < st.2
      · obtain ⟨y0, x0, hy0⟩ := hO k hk1 hk
        refine ⟨y0, x0, ?_⟩
        rcases hA y0 x0 with hcase | hcase
        · rw [hcase]
          exact hy0
        · exfalso
          rw [hcase.1] at hy0
          omega
      · have hkeq : k = st.2 := by omega
        subst hkeq
        refine ⟨y, x, ?_⟩
        have hseedne : gridAt (floodFill data w h st.2 (floodFillFuel w h)
            [((x : ℤ), (y : ℤ))] st.1) y x ≠ 0 := by
          have hb := hB ((x : ℤ), (y : ℤ)) (List.mem_singleton_self _)
            (by show (0 : ℤ) ≤ (x : ℤ); exact_mod_cast Nat.zero_le x)
            (by show (x : ℤ) < (w : ℤ); exact_mod_cast hx)
            (by show (0 : ℤ) ≤ (y : ℤ); exact_mod_cast Nat.zero_le y)
            (by show (y : ℤ) < (h : ℤ); exact_mod_cast hy)
            (by simp only [Int.toNat_natCast]; exact hbl)
          simp only [Int.toNat_natCast] at hb
          exact hb
        rcases hA y x with hcase | hcase
        · rw [hcase] at hseedne
          exact absurd hseed0 hseedne
        · exact hcase.2.1
    · intro y0 x0 hne y2 x2 hy2 hx2 hadj hbl2
      rcases hA y0 x0 with hu | hu
      · rw [hu] at hne
        have hold := hCl y0 x0 hne y2 x2 hy2 hx2 hadj hbl2
        rcases hA y2 x2 with hv | hv
        · rw [hu, hv, hold]
        · exfalso
          have hv0 := hv.1
          rw [hold] at hv0
          exact hne hv0
      · obtain ⟨hu0, huv, huy, hux, hub⟩ := hu
        have hvne := hC y0 x0 hu0 huv y2 x2 hy2 hx2 hadj hbl2
        rcases hA y2 x2 with hv | hv
        · rw [hv] at hvne
          have hold := hCl y2 x2 hvne y0 x0 huy hux (adj8_symm y0 x0 y2 x2 hadj) hub
          exfalso
          rw [hu0] at hold
          exact hvne hold.symm
        · rw [hv.2.1, huv]
  · rw [if_neg hg]
    exact ⟨hshape, hc1, hP, hO, hCl⟩

/-- The initial scan state `(all-zero grid, 1)` satisfies the invariant. -/
theorem ScanInv_init (data : Buf) (w h : ℕ) : ScanInv data w h (initLabels w h, 1) := by
  unfold ScanInv
  dsimp only
  refine ⟨⟨?_, ?_⟩, le_refl 1, ?_, ?_, ?_⟩
  · unfold initLabels
    exact List.length_replicate h (List.replicate w 0)
  · intro row hrow
    unfold initLabels at hrow
    rw [List.eq_of_mem_replicate hrow]
    exact List.length_replicate w 0
  · intro y x hne
    exact absurd (gridAt_initLabels w h y x) hne
  · intro k hk1 hk2
    omega
  · intro y x hne
    exact absurd (gridAt_initLabels w h y x) hne

/-- A full row of the scan preserves the scan invariant. -/
theorem rotRow_inv (data : Buf) (w h y : ℕ) (hy : y < h) (st : LabelGrid × ℕ)
    (hinv : ScanInv data w h st) : ScanInv data w h (rotRow data w h st y) := by
  unfold rotRow
  exact foldl_inv (rotCell data w h y) (ScanInv data w h) (List.range w) st hinv
    (fun st2 x2 hx2 h2 => rotCell_inv data w h y x2 hy (List.mem_range.mp hx2) st2 h2)

/-- The completed labelling scan satisfies the scan invariant. -/
theorem rotularScan_inv (data : Buf) (w h : ℕ) :
    ScanInv data w h (rotularScan data w h) := by
  unfold rotularScan
  exact foldl_inv (rotRow data w h) (ScanInv data w h) (List.range h)
    (initLabels w h, 1) (ScanInv_init data w h)
    (fun st2 y2 hy2 h2 => rotRow_inv data w h y2 (List.mem_range.mp hy2) st2 h2)

/-- A scan cell never erases an existing label. -/
theorem rotCell_persist (data : Buf) (w h y x y0 x0 : ℕ) (st : LabelGrid × ℕ)
    (hinv : ScanInv data w h st) (hne : gridAt st.1 y0 x0 ≠ 0) :
    gridAt (rotCell data w h y st x).1 y0 x0 ≠ 0 := by
  unfold ScanInv at hinv
  obtain ⟨hshape, hc1, _, _, _⟩ := hinv
  unfold rotCell
  by_cases hg : data.getD ((y * w + x) * 4) 255 = 0 ∧ (st.1.getD y []).getD x 0 = 0
  · rw [if_pos hg]
    have hm : ([((x : ℤ), (y : ℤ))] : List (ℤ × ℤ)).length
        + 9 * countZeros st.1 ≤ floodFillFuel w h := by
      have hcz := countZeros_le st.1 w h hshape
      simp only [List.length_singleton]
      unfold floodFillFuel
      have h9 : 9 * w * h = 9 * (h * w) := by ring
      rw [h9]
      omega
    obtain ⟨_, hA, _, _⟩ := floodFill_spec data w h st.2 hc1
      (floodFillFuel w h) [((x : ℤ), (y : ℤ))] st.1 hshape hm
    dsimp only
    rcases hA y0 x0 with hcase | hcase
    · rw [hcase]
      exact hne
    · rw [hcase.2.1]
      omega
  · rw [if_neg hg]
    exact hne

/-- After its own scan cell runs, an in-bounds foreground pixel is
labelled: either it already was, or the guard fires and the flood fill
labels the seed. -/
theorem rotCell_covers (data : Buf) (w h y x : ℕ) (hy : y < h) (hx : x < w)
    (st : LabelGrid × ℕ) (hinv : ScanInv data w h st) (hbl : rotBlack data w y x) :
    gridAt (rotCell data w h y st x).1 y x ≠ 0 := by
  unfold ScanInv at hinv
  obtain ⟨hshape, hc1, _, _, _⟩ := hinv
  unfold rotCell
  by_cases hg : data.getD ((y * w + x) * 4) 255 = 0 ∧ (st.1.getD y []).getD x 0 = 0
  · rw [if_pos hg]
    have hm : ([((x : ℤ), (y : ℤ))] : List (ℤ × ℤ)).length
        + 9 * countZeros st.1 ≤ floodFillFuel w h := by
      have hcz := countZeros_le st.1 w h hshape
      simp only [List.length_singleton]
      unfold floodFillFuel
      have h9 : 9 * w * h = 9 * (h * w) := by ring
      rw [h9]
      omega
    obtain ⟨_, _, hB, _⟩ := floodFill_spec data w h st.2 hc1
      (floodFillFuel w h) [((x : ℤ), (y : ℤ))] st.1 hshape hm
    dsimp only
    have hb := hB ((x : ℤ), (y : ℤ)) (List.mem_singleton_self _)
      (by show (0 : ℤ) ≤ (x : ℤ); exact_mod_cast Nat.zero_le x)
      (by show (x : ℤ) < (w : ℤ); exact_mod_cast hx)
      (by show (0 : ℤ) ≤ (y : ℤ); exact_mod_cast Nat.zero_le y)
      (by show (y : ℤ) < (h : ℤ); exact_mod_cast hy)
      (by simp only [Int.toNat_natCast]; exact hbl)
    simp only [Int.toNat_natCast] at hb
    exact hb
  · rw [if_neg hg]
    push_neg at hg
    exact hg hbl

/-- After its own row runs, every in-bounds foreground pixel of that row
is labelled. -/
theorem rotRow_covers (data : Buf) (w h y : ℕ) (hy : y < h) (st : LabelGrid × ℕ)
    (hinv : ScanInv data w h st) :
    ∀ x, x < w → rotBlack data w y x → gridAt (rotRow data w h st y).1 y x ≠ 0 := by
  intro x hx hbl
  unfold rotRow
  have hmain := foldl_pointwise (rotCell data w h y) (ScanInv data w h)
    (fun a st2 => rotBlack data w y a → gridAt st2.1 y a ≠ 0)
    (List.range w) st hinv
    (fun b2 a ha h2 => rotCell_inv data w h y a hy (List.mem_range.mp ha) b2 h2)
    (fun b2 a ha h2 => rotCell_covers data w h y a hy (List.mem_range.mp ha) b2 h2)
    (fun b2 a a2 _ h2 hR hbl2 => rotCell_persist data w h y a2 y a b2 h2 (hR hbl2))
    x (List.mem_range.mpr hx)
  exact hmain hbl

/-- A whole row of the scan never erases an existing label. -/
theorem rotRow_persist (data : Buf) (w h y2 y0 x0 : ℕ) (hy2 : y2 < h)
    (st : LabelGrid × ℕ) (hinv : ScanInv data w h st)
    (hne : gridAt st.1 y0 x0 ≠ 0) :
    gridAt (rotRow data w h st y2).1 y0 x0 ≠ 0 := by
  unfold rotRow
  have hmain := foldl_inv (rotCell data w h y2)
    (fun st2 => ScanInv data w h st2 ∧ gridAt st2.1 y0 x0 ≠ 0)
    (List.range w) st ⟨hinv, hne⟩
    (fun b2 a ha h2 => ⟨rotCell_inv data w h y2 a hy2 (List.mem_range.mp ha) b2 h2.1,
      rotCell_persist data w h y2 a y0 x0 b2 h2.1 h2.2⟩)
  exact hmain.2

/-- After the completed scan, every in-bounds foreground pixel is
labelled. -/
theorem rotularScan_covers (data : Buf) (w h : ℕ) :
    ∀ y x, y < h → x < w → rotBlack data w y x →
      gridAt (rotularScan data w h).1 y x ≠ 0 := by
  intro y x hy hx hbl
  unfold rotularScan
  have hmain := foldl_pointwise (rotRow data w h) (ScanInv data w h)
    (fun a st2 => ∀ x2, x2 < w → rotBlack data w a x2 → gridAt st2.1 a x2 ≠ 0)
    (List.range h) (initLabels w h, 1) (ScanInv_init data w h)
    (fun b2 a ha h2 => rotRow_inv data w h a (List.mem_range.mp ha) b2 h2)
    (fun b2 a ha h2 => rotRow_covers data w h a (List.mem_range.mp ha) b2 h2)
    (fun b2 a a2 ha2 h2 hR x2 hx2 hbl2 =>
      rotRow_persist data w h a2 a x2 (List.mem_range.mp ha2) b2 h2 (hR x2 hx2 hbl2))
    y (List.mem_range.mpr hy)
  exact hmain x hx hbl

/-- C9 — Labeler result well-formedness: `rotularComponentes` returns a
label grid in which an in-bounds cell is positive exactly when the
corresponding pixel's red channel reads 0, every label is at most
`componentes`, every label from 1 to `componentes` occurs, and any two
cells of one 8-connected foreground component carry the same label. -/
theorem C9_labeler_wellformed (data : Buf) (w h : ℕ) (labels : LabelGrid)
    (comps : ℕ) (hres : rotularComponentes data w h = (labels, comps)) :
    (∀ y x, y < h → x < w → (0 < gridAt labels y x ↔ rotBlack data w y x))
    ∧ (∀ y x, gridAt labels y x ≤ comps)
    ∧ (∀ k, 1 ≤ k → k ≤ comps → ∃ y x, gridAt labels y x = k)
    ∧ (∀ p q, sameComponent data w h p q →
        gridAt labels p.1 p.2 = gridAt labels q.1 q.2) := by
  have hinv := rotularScan_inv data w h
  unfold ScanInv at hinv
  obtain ⟨hshape, hc1, hP, hO, hCl⟩ := hinv
  have hcov := rotularScan_covers data w h
  have h1 : (rotularScan data w h).1 = labels := congrArg Prod.fst hres
  have h2 : (rotularScan data w h).2 - 1 = comps := congrArg Prod.snd hres
  subst h1
  subst h2
  refine ⟨?_, ?_, ?_, ?_⟩
  · intro y x hy hx
    constructor
    · intro hpos
      exact (hP y x (by omega)).2.2.1
    · intro hbl
      have := hcov y x hy hx hbl
      omega
  · intro y x
    by_cases hz : gridAt (rotularScan data w h).1 y x = 0
    · rw [hz]
      exact Nat.zero_le _
    · have := (hP y x hz).2.2.2
      omega
  · intro k hk1 hk2
    exact hO k hk1 (by omega)
  · intro p q hpq
    unfold sameComponent at hpq
    induction hpq with
    | refl => rfl
    | @tail b c hab hbc ih =>
      unfold rotStep at hbc
      obtain ⟨hbh, hbw, hch, hcw, hbb, hcb, hadj⟩ := hbc
      have hbne := hcov b.1 b.2 hbh hbw hbb
      have heq := hCl b.1 b.2 hbne c.1 c.2 hch hcw hadj hcb
      rw [ih, ← heq]

/-- Witness for C9 on the all-white 10×5 test buffer: the labeler returns
the all-zero grid with zero components, and the four clauses hold there. -/
theorem C9_labeler_wellformed_witness :
    (∀ y x, y < 5 → x < 10 →
        (0 < gridAt (initLabels 10 5) y x ↔ rotBlack bufWhite 10 y x))
    ∧ (∀ y x, gridAt (initLabels 10 5) y x ≤ 0)
    ∧ (∀ k, 1 ≤ k → k ≤ 0 → ∃ y x, gridAt (initLabels 10 5) y x = k)
    ∧ (∀ p q, sameComponent bufWhite 10 5 p q →
        gridAt (initLabels 10 5) p.1 p.2 = gridAt (initLabels 10 5) q.1 q.2) :=
  C9_labeler_wellformed bufWhite 10 5 (initLabels 10 5) 0 (by decide)
